import Mathlib

/-!
# Verification of the GPU-preference store core (`src/application/src/main.py`)

Shallow embedding of the preference-store core of the repository:

* `normalize_path` embeds the Python function `normalize_path` (main.py lines 54-58),
  including a faithful model of CPython's `ntpath.normpath` (the host-OS
  normalization used on Windows, where the program runs: it imports `winreg`):
  replace `/` by `\`, split off drive/root (`ntpath.splitroot`), collapse empty,
  `.` and `..` components, re-join.  Character upper-casing is modelled by
  `Char.toUpper`, which agrees with Python `str.upper` on ASCII (the drive
  letters the rule is about).
* `Pref`, `Pref.fromRegValue` embed the `Pref` IntEnum (lines 70-76).
* The backing registry key is modelled as `RegState := Option (List (String × String))`:
  `none` means the key does not exist, otherwise the list holds the (value
  name, string data) pairs in enumeration order.  Registry value names are
  unique; name comparison is modelled as string equality.
* `readAll`, `set_pref`, `delete`, `backupDoc`, `restore` embed
  `RegistryManager.read_all`/`set_pref`/`delete`/`backup`/`restore`
  (lines 88-138).  File I/O is abstracted: `restore` receives the outcome of
  `json.load` as an `Option JValue` (`none` = the file is not valid JSON, in
  which case `json.load` raises `json.JSONDecodeError`); `backup`'s output is
  the JSON document `backupDoc`.  JSON numbers are modelled as integers (the
  preference codes the program stores are integers).
* Python exceptions raised by `restore` are modelled by `PyErr`.
-/

namespace GpuPref

/-! ## Path normalization: model of `ntpath.normpath` -/

/-- `path.replace(altsep, sep)`: replace each `/` by `\`. -/
def replaceAlt (l : List Char) : List Char :=
  l.map (fun c => if c = '/' then '\\' else c)

/-- Index of the first occurrence of `c` in `l` (Python `str.find` on one char,
returning `none` instead of `-1`). -/
def firstIdx (c : Char) : List Char → Option Nat
  | [] => none
  | a :: as => if a = c then some 0 else (firstIdx c as).map (· + 1)

/-- Python `p.find(c, start)` (with `none` for `-1`). -/
def findFrom (l : List Char) (c : Char) (start : Nat) : Option Nat :=
  (firstIdx c (l.drop start)).map (· + start)

/-- The literal `'\\\\?\\UNC\\'` prefix checked by `ntpath.splitroot`. -/
def uncPfx : List Char := ['\\', '\\', '?', '\\', 'U', 'N', 'C', '\\']

/-- Model of `ntpath.splitroot(p) -> (drive, root, tail)` (CPython).  Returns
slices of `p`; `drive ++ root ++ tail = p`. -/
def splitroot (p : List Char) : List Char × List Char × List Char :=
  let normp := replaceAlt p
  if normp.take 1 = ['\\'] then
    if normp.take 2 = ['\\', '\\'] then
      -- UNC drives (\\server\share), device drives (\\.\device), \\?\UNC\ paths
      let start := if (normp.take 8).map Char.toUpper = uncPfx then 8 else 2
      match findFrom normp '\\' start with
      | none => (p, [], [])
      | some index =>
        match findFrom normp '\\' (index + 1) with
        | none => (p, [], [])
        | some index2 => (p.take index2, (p.drop index2).take 1, p.drop (index2 + 1))
    else ([], p.take 1, p.drop 1)
  else if (normp.drop 1).take 1 = [':'] then
    if (normp.drop 2).take 1 = ['\\'] then (p.take 2, (p.drop 2).take 1, p.drop 3)
    else (p.take 2, [], p.drop 2)
  else ([], [], p)

/-- `tail.split(sep)`: split a char list on `\` (Python `str.split` semantics:
`''.split(sep) = ['']`, empty chunks kept). -/
def splitSep : List Char → List (List Char)
  | [] => [[]]
  | c :: cs =>
    if c = '\\' then [] :: splitSep cs
    else
      match splitSep cs with
      | [] => [[c]]
      | h :: t => (c :: h) :: t

/-- `sep.join(comps)`. -/
def joinSep : List (List Char) → List Char
  | [] => []
  | [x] => x
  | x :: y :: xs => x ++ '\\' :: joinSep (y :: xs)

/-- The `'..'` component. -/
def pardir : List Char := ['.', '.']

/-- Functional form of the in-place component loop of `ntpath.normpath`
(`while i < len(comps): ...`).  `acc` holds, in reverse, the components
before index `i`, which the loop never revisits: an empty or `'.'` component
is dropped; `'..'` cancels a previous non-`'..'` component, is dropped at the
front when there is a root, and is kept otherwise; other components are kept. -/
def collapseComps (root : Bool) : List (List Char) → List (List Char) → List (List Char)
  | acc, [] => acc.reverse
  | acc, c :: cs =>
    if c = [] ∨ c = ['.'] then collapseComps root acc cs
    else if c = pardir then
      match acc with
      | prev :: rest =>
        if prev = pardir then collapseComps root (c :: acc) cs
        else collapseComps root rest cs
      | [] => if root then collapseComps root [] cs else collapseComps root [c] cs
    else collapseComps root (c :: acc) cs

/-- A component kept by the collapse loop: nonempty, not `'.'`, and
separator-free (it came from splitting on the separator). -/
def CleanComp (c : List Char) : Prop := c ≠ [] ∧ c ≠ ['.'] ∧ '\\' ∉ c

/-- Shape invariant of the collapse loop's output: clean components, with
`'..'` only as a leading run, and no `'..'` at all when there is a root. -/
def GoodComps (root : Bool) (xs : List (List Char)) : Prop :=
  (∀ c ∈ xs, CleanComp c) ∧
  ∃ k rest, xs = List.replicate k pardir ++ rest ∧ pardir ∉ rest ∧ (root = true → k = 0)

/-- Invariant of the collapse loop's accumulator (the reversed list of kept
components): clean components, `'..'` only as a trailing run of the
accumulator, none when there is a root. -/
def AccInv (root : Bool) (acc : List (List Char)) : Prop :=
  (∀ c ∈ acc, CleanComp c) ∧
  ∃ front k, acc = front ++ List.replicate k pardir ∧ pardir ∉ front ∧ (root = true → k = 0)

/-- Model of `ntpath.normpath` (CPython, `str` branch). -/
def pyNormPath (p : List Char) : List Char :=
  let path := replaceAlt p
  let dr := splitroot path
  let pfx := dr.1 ++ dr.2.1
  let comps := collapseComps (!dr.2.1.isEmpty) [] (splitSep dr.2.2)
  let comps2 := if pfx = [] ∧ comps = [] then [['.']] else comps
  pfx ++ joinSep comps2

/-- The drive-letter upper-casing step of `normalize_path`:
`if len(p) >= 2 and p[1] == ":": p = p[0].upper() + p[1:]`. -/
def upperDrive : List Char → List Char
  | c0 :: c1 :: rest => if c1 = ':' then Char.toUpper c0 :: c1 :: rest else c0 :: c1 :: rest
  | l => l

/-- `normalize_path` (main.py lines 54-58). -/
def normalize_path (s : String) : String :=
  ⟨upperDrive (pyNormPath s.data)⟩

/-! ## Preferences and registry model -/

/-- The `Pref` IntEnum: `POWER = 1`, `PERF = 2`. -/
inductive Pref
  | POWER
  | PERF
deriving DecidableEq, Repr

/-- `int(pref)`: the integer code of a member. -/
def Pref.toInt : Pref → Int
  | .POWER => 1
  | .PERF => 2

/-- The literal substring tested by `Pref.from_reg_value`. -/
def markerChars : List Char := "GpuPreference=2".data

/-- Does `hay` start with `needle`? -/
def startsWithChars : List Char → List Char → Bool
  | [], _ => true
  | _ :: _, [] => false
  | a :: as, b :: bs => a == b && startsWithChars as bs

/-- Python substring containment `needle in hay`. -/
def hasSub (needle : List Char) : List Char → Bool
  | [] => needle.isEmpty
  | c :: cs => startsWithChars needle (c :: cs) || hasSub needle cs

/-- `Pref.from_reg_value` (main.py lines 74-76):
`Pref.PERF if "GpuPreference=2" in val else Pref.POWER`. -/
def Pref.fromRegValue (val : String) : Pref :=
  if hasSub markerChars val.data then .PERF else .POWER

/-- The `Entry` dataclass (main.py lines 79-82). -/
structure Entry where
  exe : String
  pref : Pref
deriving DecidableEq, Repr

/-- The values stored under the backing registry key, in enumeration order:
(value name, string data) pairs.  Names are unique in a real registry key. -/
abbrev RegKey := List (String × String)

/-- The backing key: `none` when the key does not exist. -/
abbrev RegState := Option RegKey

/-- One step of `read_all`'s loop body: `Entry(exe=normalize_path(name), pref=Pref.from_reg_value(val))`. -/
def entryOfPair (q : String × String) : Entry :=
  ⟨normalize_path q.1, Pref.fromRegValue q.2⟩

/-- `RegistryManager.read_all` (main.py lines 88-102) in the absence of
spurious OS failures: enumerate every value; a missing key (`OSError` from
`OpenKey`) yields `[]`. -/
def readAll : RegState → List Entry
  | none => []
  | some k => k.map entryOfPair

/-- The stored string `f"GpuPreference={int(pref)};"`. -/
def regValueOf (pr : Pref) : String :=
  "GpuPreference=" ++ toString pr.toInt ++ ";"

/-- `winreg.SetValueEx`: overwrite the named value if present, else create it
(at the end, in enumeration order). -/
def setValue (name v : String) (k : RegKey) : RegKey :=
  if k.any (fun q => q.1 == name) then
    k.map (fun q => if q.1 == name then (name, v) else q)
  else k ++ [(name, v)]

/-- `RegistryManager.set_pref` (main.py lines 104-112): normalize, create the
key if absent (`CreateKeyEx`), write the formatted value. -/
def set_pref (exe : String) (pr : Pref) (st : RegState) : RegState :=
  some (setValue (normalize_path exe) (regValueOf pr) (st.getD []))

/-- `winreg.DeleteValue` with the surrounding `except FileNotFoundError: pass`:
remove the named value if present, else leave the key unchanged. -/
def deleteValue (name : String) (k : RegKey) : RegKey :=
  k.filter (fun q => q.1 != name)

/-- `RegistryManager.delete` (main.py lines 114-123): a missing key
(`FileNotFoundError` from `OpenKey`) or a missing value is swallowed. -/
def delete (exe : String) : RegState → RegState
  | none => none
  | some k => some (deleteValue (normalize_path exe) k)

/-! ## Backup / restore -/

/-- Exception classes that `RegistryManager.restore` can raise, besides file
I/O errors (which are outside this model): `json.JSONDecodeError` from
`json.load` (the spec's `FormatError`), `AttributeError` from `data.items()`
when the parsed document is not a dict, `ValueError` from `Pref(code)` when a
value is not a valid member code. -/
inductive PyErr
  | jsonDecodeError
  | attributeError
  | valueError
deriving DecidableEq, Repr

/-- A parsed JSON document (`json.load` result).  Numbers are modelled as
integers. -/
inductive JValue
  | jnull
  | jbool (b : Bool)
  | jint (n : Int)
  | jstr (s : String)
  | jarr (elems : List JValue)
  | jobj (fields : List (String × JValue))

/-- `Pref(code)` on a parsed JSON value: `Pref(1)`/`Pref(2)` are the members;
`Pref(True)` is `POWER` because `True == 1` in Python; everything else raises
`ValueError` (`none`). -/
def pyPrefOfJson : JValue → Option Pref
  | .jint n => if n = 1 then some .POWER else if n = 2 then some .PERF else none
  | .jbool b => if b then some .POWER else none
  | _ => none

/-- The loop `for exe, code in data.items(): RegistryManager.set_pref(exe, Pref(code))`. -/
def applyEntries : List (String × JValue) → RegState → Except PyErr RegState
  | [], st => .ok st
  | (exe, v) :: rest, st =>
    match pyPrefOfJson v with
    | some pr => applyEntries rest (set_pref exe pr st)
    | none => .error .valueError

/-- The loop `for e in RegistryManager.read_all(): RegistryManager.delete(e.exe)`:
`read_all` is evaluated once, then the deletions run in order. -/
def clearEntries (st : RegState) : RegState :=
  (readAll st).foldl (fun s e => delete e.exe s) st

/-- `RegistryManager.restore` (main.py lines 131-138) on the parsed source
document (`none` = the file's contents are not valid JSON).  Note the order:
the parse happens first, the clearing loop second, and `data.items()` is only
evaluated (raising `AttributeError` for a non-dict) when the final loop
starts, after the store has been cleared. -/
def restore (doc : Option JValue) (st : RegState) : Except PyErr RegState :=
  match doc with
  | none => .error .jsonDecodeError
  | some v =>
    let st1 := clearEntries st
    match v with
    | .jobj fields => applyEntries fields st1
    | _ => .error .attributeError

/-- Python dict assignment `d[k] = v`: update in place if the key is present
(keeping its position), else append. -/
def dictIns (d : List (String × Int)) (k : String) (v : Int) : List (String × Int) :=
  if d.any (fun q => q.1 == k) then d.map (fun q => if q.1 == k then (k, v) else q)
  else d ++ [(k, v)]

/-- The dict comprehension `{e.exe: int(e.pref) for e in RegistryManager.read_all()}`. -/
def buildDict (es : List Entry) : List (String × Int) :=
  es.foldl (fun d e => dictIns d e.exe e.pref.toInt) []

/-- The JSON document written by `RegistryManager.backup` (main.py lines 125-129). -/
def backupDoc (st : RegState) : JValue :=
  .jobj ((buildDict (readAll st)).map (fun q => (q.1, .jint q.2)))

/-! ## `read_all` with a possibly failing enumeration

`read_all` wraps the whole `while True: EnumValue(...)` loop in
`try ... except OSError: pass`, so the loop normally ends when `EnumValue`
raises `OSError` at the end of the values, and a spurious `OSError` partway
through ends it early with the entries read so far.  `failAt = some f` makes
enumeration fail at index `f`; `failAt = none` means enumeration only fails
past the last value (the normal case). -/

/-- `winreg.EnumValue(key, i)`: the value at index `i`, or `OSError`. -/
def enumValue (k : RegKey) (failAt : Option Nat) (i : Nat) : Except Unit (String × String) :=
  match failAt with
  | some f =>
    if i < f then
      match k[i]? with
      | some nv => .ok nv
      | none => .error ()
    else .error ()
  | none =>
    match k[i]? with
    | some nv => .ok nv
    | none => .error ()

/-- The `while True` loop of `read_all`, with fuel (the loop makes at most
`k.length + 1` calls to `EnumValue` before one raises). -/
def readLoop (k : RegKey) (failAt : Option Nat) : Nat → Nat → List Entry → List Entry
  | 0, _, out => out
  | fuel + 1, i, out =>
    match enumValue k failAt i with
    | .error _ => out
    | .ok nv => readLoop k failAt fuel (i + 1) (out ++ [entryOfPair nv])

/-- `read_all` with the enumeration-failure oracle. -/
def readAllModel (st : RegState) (failAt : Option Nat) : List Entry :=
  match st with
  | none => []
  | some k => readLoop k failAt (k.length + 1) 0 []


/-- The values the enumeration loop can actually see before some call to
`EnumValue` raises: all of them when `failAt = none`, else the first `f`. -/
def effList (k : RegKey) (failAt : Option Nat) : RegKey :=
  match failAt with
  | some f => k.take f
  | none => k

/-! ## Path-normalization lemmas -/

theorem toNat_ofNat_small (m : Nat) (h : m < 55296) : (Char.ofNat m).toNat = m := by
  have hv : Nat.isValidChar m := Or.inl h
  simp only [Char.ofNat, dif_pos hv, Char.ofNatAux, Char.toNat]
  simp [UInt32.toNat]

theorem char_eq_iff_toNat (c d : Char) : c = d ↔ c.toNat = d.toNat := by
  constructor
  · intro h; rw [h]
  · intro h; exact Char.ext (UInt32.toNat.inj h)

theorem toUpper_shape (c : Char) :
    Char.toUpper c = c ∨
      (97 ≤ c.toNat ∧ c.toNat ≤ 122 ∧ (Char.toUpper c).toNat = c.toNat - 32) := by
  by_cases h : c.toNat ≥ 97 ∧ c.toNat ≤ 122
  · right
    refine ⟨h.1, h.2, ?_⟩
    have : Char.toUpper c = Char.ofNat (c.toNat - 32) := by
      show (let n := c.toNat; if n ≥ 97 ∧ n ≤ 122 then Char.ofNat (n - 32) else c) = _
      simp only [if_pos h]
    rw [this]
    exact toNat_ofNat_small _ (by omega)
  · left
    show (let n := c.toNat; if n ≥ 97 ∧ n ≤ 122 then Char.ofNat (n - 32) else c) = _
    simp only [if_neg h]

theorem toUpper_toUpper (c : Char) : Char.toUpper (Char.toUpper c) = Char.toUpper c := by
  rcases toUpper_shape c with h | ⟨h1, h2, h3⟩
  · simp only [h]
  · rcases toUpper_shape (Char.toUpper c) with h' | ⟨h1', h2', _⟩
    · exact h'
    · omega

theorem toUpper_ne (c d : Char) (hd : ¬(65 ≤ d.toNat ∧ d.toNat ≤ 90)) (hcd : c ≠ d) :
    Char.toUpper c ≠ d := by
  rcases toUpper_shape c with h | ⟨h1, h2, h3⟩
  · rw [h]; exact hcd
  · intro he
    rw [char_eq_iff_toNat] at he
    omega

theorem take_one_eq_iff (xs : List Char) (c : Char) : xs.take 1 = [c] ↔ xs[0]? = some c := by
  cases xs <;> simp

theorem drop_take_one (l : List Char) (n : Nat) (c : Char) :
    (l.drop n).take 1 = [c] ↔ l[n]? = some c := by
  rw [take_one_eq_iff, List.getElem?_drop]
  simp

theorem firstIdx_some (c : Char) (l : List Char) (i : Nat) (h : firstIdx c l = some i) :
    l[i]? = some c ∧ ∀ j, j < i → l[j]? ≠ some c := by
  induction l generalizing i with
  | nil => simp [firstIdx] at h
  | cons a as ih =>
    by_cases hac : a = c
    · simp [firstIdx, hac] at h
      subst h; subst hac
      exact ⟨by simp, by omega⟩
    · simp [firstIdx, hac] at h
      obtain ⟨i', hi', rfl⟩ := h
      obtain ⟨h1, h2⟩ := ih _ hi'
      refine ⟨by simpa using h1, ?_⟩
      intro j hj
      cases j with
      | zero => simpa using hac
      | succ j' => simpa using h2 j' (by omega)

theorem firstIdx_none (c : Char) (l : List Char) (h : firstIdx c l = none) :
    ∀ j : Nat, l[j]? ≠ some c := by
  induction l with
  | nil => intro j; simp
  | cons a as ih =>
    by_cases hac : a = c
    · simp [firstIdx, hac] at h
    · simp [firstIdx, hac] at h
      intro j
      cases j with
      | zero => simpa using hac
      | succ j' => simpa using ih h j'

theorem firstIdx_of (c : Char) (l : List Char) (i : Nat) (h1 : l[i]? = some c)
    (h2 : ∀ j, j < i → l[j]? ≠ some c) : firstIdx c l = some i := by
  induction l generalizing i with
  | nil => simp at h1
  | cons a as ih =>
    cases i with
    | zero =>
      simp at h1
      simp [firstIdx, h1]
    | succ i' =>
      have ha : a ≠ c := by simpa using h2 0 (by omega)
      simp at h1
      simp [firstIdx, ha]
      exact ih i' h1 (fun j hj => by simpa using h2 (j + 1) (by omega))

theorem findFrom_some (l : List Char) (c : Char) (s i : Nat) (h : findFrom l c s = some i) :
    s ≤ i ∧ l[i]? = some c ∧ ∀ j, s ≤ j → j < i → l[j]? ≠ some c := by
  simp only [findFrom, Option.map_eq_some'] at h
  obtain ⟨i', hi', rfl⟩ := h
  obtain ⟨h1, h2⟩ := firstIdx_some c (l.drop s) i' hi'
  rw [List.getElem?_drop] at h1
  refine ⟨by omega, by rw [Nat.add_comm] at h1; exact h1, ?_⟩
  intro j hsj hji
  have := h2 (j - s) (by omega)
  rw [List.getElem?_drop] at this
  have hj : s + (j - s) = j := by omega
  rw [hj] at this
  exact this

theorem findFrom_none (l : List Char) (c : Char) (s : Nat) (h : findFrom l c s = none) :
    ∀ j, s ≤ j → l[j]? ≠ some c := by
  simp only [findFrom, Option.map_eq_none'] at h
  intro j hsj
  have := firstIdx_none c (l.drop s) h (j - s)
  rw [List.getElem?_drop] at this
  have hj : s + (j - s) = j := by omega
  rw [hj] at this
  exact this

theorem findFrom_of (l : List Char) (c : Char) (s i : Nat) (hsi : s ≤ i)
    (h1 : l[i]? = some c) (h2 : ∀ j, s ≤ j → j < i → l[j]? ≠ some c) :
    findFrom l c s = some i := by
  have : firstIdx c (l.drop s) = some (i - s) := by
    apply firstIdx_of
    · rw [List.getElem?_drop]
      have : s + (i - s) = i := by omega
      rw [this]; exact h1
    · intro j hj
      rw [List.getElem?_drop]
      exact h2 (s + j) (by omega) (by omega)
  simp only [findFrom, this, Option.map_some']
  congr 1
  omega

theorem splitSep_ne_nil (l : List Char) : splitSep l ≠ [] := by
  induction l with
  | nil => simp [splitSep]
  | cons c cs ih =>
    by_cases h : c = '\\'
    · simp [splitSep, h]
    · simp only [splitSep, if_neg h]
      rcases he : splitSep cs with _ | ⟨h', t'⟩
      · simp
      · simp

theorem splitSep_sep_free (l : List Char) : ∀ ch ∈ splitSep l, '\\' ∉ ch := by
  induction l with
  | nil => intro ch hch; simp [splitSep] at hch; simp [hch]
  | cons c cs ih =>
    intro ch hch
    by_cases h : c = '\\'
    · simp [splitSep, h] at hch
      rcases hch with rfl | hch
      · simp
      · exact ih ch hch
    · simp only [splitSep, if_neg h] at hch
      rcases he : splitSep cs with _ | ⟨h', t'⟩
      · exact absurd he (splitSep_ne_nil cs)
      · rw [he] at hch
        simp at hch
        rcases hch with rfl | hch
        · intro hmem
          simp at hmem
          rcases hmem with rfl | hmem
          · exact h rfl
          · exact ih h' (by rw [he]; simp) hmem
        · exact ih ch (by rw [he]; simp [hch])

theorem splitSep_chars (l : List Char) : ∀ ch ∈ splitSep l, ∀ x ∈ ch, x ∈ l := by
  induction l with
  | nil => intro ch hch; simp [splitSep] at hch; simp [hch]
  | cons c cs ih =>
    intro ch hch x hx
    by_cases h : c = '\\'
    · simp [splitSep, h] at hch
      rcases hch with rfl | hch
      · simp at hx
      · exact List.mem_cons_of_mem _ (ih ch hch x hx)
    · simp only [splitSep, if_neg h] at hch
      rcases he : splitSep cs with _ | ⟨h', t'⟩
      · exact absurd he (splitSep_ne_nil cs)
      · rw [he] at hch
        simp at hch
        rcases hch with rfl | hch
        · simp at hx
          rcases hx with rfl | hx
          · simp
          · exact List.mem_cons_of_mem _ (ih h' (by rw [he]; simp) x hx)
        · exact List.mem_cons_of_mem _ (ih ch (by rw [he]; simp [hch]) x hx)

/-- chars of a chunk sit at the same or later index in the source. -/

theorem splitSep_shift (l : List Char) :
    ∀ ch ∈ splitSep l, ∀ (j : Nat) (x : Char), ch[j]? = some x → ∃ i, j ≤ i ∧ l[i]? = some x := by
  induction l with
  | nil => intro ch hch j x hj; simp [splitSep] at hch; simp [hch] at hj
  | cons c cs ih =>
    intro ch hch j x hj
    by_cases h : c = '\\'
    · simp [splitSep, h] at hch
      rcases hch with rfl | hch
      · simp at hj
      · obtain ⟨i, hi1, hi2⟩ := ih ch hch j x hj
        exact ⟨i + 1, by omega, by simpa using hi2⟩
    · simp only [splitSep, if_neg h] at hch
      rcases he : splitSep cs with _ | ⟨h', t'⟩
      · exact absurd he (splitSep_ne_nil cs)
      · rw [he] at hch
        simp at hch
        rcases hch with rfl | hch
        · cases j with
          | zero => simp at hj; exact ⟨0, by omega, by simpa using hj⟩
          | succ j' =>
            simp at hj
            obtain ⟨i, hi1, hi2⟩ := ih h' (by rw [he]; simp) j' x hj
            exact ⟨i + 1, by omega, by simpa using hi2⟩
        · obtain ⟨i, hi1, hi2⟩ := ih ch (by rw [he]; simp [hch]) j x hj
          exact ⟨i + 1, by omega, by simpa using hi2⟩

theorem splitSep_no_sep (x : List Char) (hx : '\\' ∉ x) : splitSep x = [x] := by
  induction x with
  | nil => simp [splitSep]
  | cons c cs ih =>
    have hc : c ≠ '\\' := fun h => hx (by simp [h])
    have : splitSep cs = [cs] := ih (fun h => hx (by simp [h]))
    simp [splitSep, hc, this]

theorem splitSep_append (x r : List Char) (hx : '\\' ∉ x) :
    splitSep (x ++ '\\' :: r) = x :: splitSep r := by
  induction x with
  | nil => simp [splitSep]
  | cons c cs ih =>
    have hc : c ≠ '\\' := fun h => hx (by simp [h])
    have := ih (fun h => hx (by simp [h]))
    simp only [List.cons_append, splitSep, if_neg hc]
    rw [show cs.append ('\\' :: r) = cs ++ '\\' :: r from rfl, this]

theorem splitSep_joinSep (xs : List (List Char)) (hne : xs ≠ [])
    (hfree : ∀ ch ∈ xs, '\\' ∉ ch) : splitSep (joinSep xs) = xs := by
  induction xs with
  | nil => exact absurd rfl hne
  | cons x xs ih =>
    cases xs with
    | nil => exact splitSep_no_sep x (hfree x (by simp))
    | cons y ys =>
      show splitSep (x ++ '\\' :: joinSep (y :: ys)) = _
      rw [splitSep_append x _ (hfree x (by simp))]
      rw [ih (by simp) (fun ch hch => hfree ch (by simp [hch]))]

theorem collapse_plain (root : Bool) (l : List (List Char))
    (hl : ∀ c ∈ l, c ≠ [] ∧ c ≠ ['.'] ∧ c ≠ pardir) :
    ∀ acc, collapseComps root acc l = acc.reverse ++ l := by
  induction l with
  | nil => intro acc; simp [collapseComps]
  | cons c cs ih =>
    intro acc
    obtain ⟨h1, h2, h3⟩ := hl c (by simp)
    have hor : ¬(c = [] ∨ c = ['.']) := by simp [h1, h2]
    simp only [collapseComps, if_neg hor, if_neg h3]
    rw [ih (fun x hx => hl x (by simp [hx])) (c :: acc)]
    simp

theorem collapse_pardirs (k : Nat) (rest : List (List Char))
    (hrest : ∀ c ∈ rest, c ≠ [] ∧ c ≠ ['.'] ∧ c ≠ pardir) :
    ∀ j, collapseComps false (List.replicate j pardir) (List.replicate k pardir ++ rest) =
      List.replicate (j + k) pardir ++ rest := by
  induction k with
  | zero =>
    intro j
    rw [List.replicate_zero, List.nil_append, collapse_plain false rest hrest]
    simp [List.reverse_replicate]
  | succ k' ih =>
    intro j
    have hpp : ¬((pardir : List Char) = [] ∨ pardir = ['.']) := by simp [pardir]
    rw [List.replicate_succ, List.cons_append]
    cases j with
    | zero =>
      simp only [collapseComps, if_neg hpp, if_pos rfl, List.replicate_zero]
      have := ih 1
      simp only [List.replicate_one] at this
      rw [this]
      have harith : 1 + k' = 0 + (k' + 1) := by omega
      rw [harith]
      simp
    | succ j' =>
      simp only [collapseComps, if_neg hpp, if_pos rfl, List.replicate_succ, if_pos rfl]
      have := ih (j' + 2)
      rw [show pardir :: pardir :: List.replicate j' pardir = List.replicate (j' + 2) pardir by
        simp [List.replicate_succ], this]
      have harith : j' + 2 + k' = j' + 1 + (k' + 1) := by omega
      rw [harith]
      simp

theorem collapse_good_fix (root : Bool) (xs : List (List Char)) (h : GoodComps root xs) :
    collapseComps root [] xs = xs := by
  obtain ⟨hclean, k, rest, rfl, hnp, hk⟩ := h
  have hrest : ∀ c ∈ rest, c ≠ [] ∧ c ≠ ['.'] ∧ c ≠ pardir := by
    intro c hc
    obtain ⟨h1, h2, _⟩ := hclean c (by simp [hc])
    exact ⟨h1, h2, fun he => hnp (he ▸ hc)⟩
  cases root with
  | false =>
    have := collapse_pardirs k rest hrest 0
    simpa using this
  | true =>
    rw [hk rfl]
    simp only [List.replicate_zero, List.nil_append]
    rw [collapse_plain true rest hrest []]
    simp

theorem accInv_nil (root : Bool) : AccInv root [] :=
  ⟨by simp, [], 0, by simp, by simp, fun _ => rfl⟩

theorem pardir_clean : CleanComp pardir := by
  refine ⟨by simp [pardir], by simp [pardir], by simp [pardir]⟩

theorem collapse_skip (root : Bool) (acc : List (List Char)) (c : List Char)
    (cs : List (List Char)) (h : c = [] ∨ c = ['.']) :
    collapseComps root acc (c :: cs) = collapseComps root acc cs := by
  simp [collapseComps, if_pos h]

theorem collapse_pop (root : Bool) (prev : List Char) (rest cs : List (List Char))
    (h3 : prev ≠ pardir) :
    collapseComps root (prev :: rest) (pardir :: cs) = collapseComps root rest cs := by
  have h1 : ¬((pardir : List Char) = [] ∨ pardir = ['.']) := by simp [pardir]
  simp [collapseComps, if_neg h1, h3]

theorem collapse_stack (root : Bool) (rest cs : List (List Char)) :
    collapseComps root (pardir :: rest) (pardir :: cs) =
      collapseComps root (pardir :: pardir :: rest) cs := by
  have h1 : ¬((pardir : List Char) = [] ∨ pardir = ['.']) := by simp [pardir]
  simp [collapseComps, if_neg h1]

theorem collapse_nil_root (cs : List (List Char)) :
    collapseComps true [] (pardir :: cs) = collapseComps true [] cs := by
  have h1 : ¬((pardir : List Char) = [] ∨ pardir = ['.']) := by simp [pardir]
  simp [collapseComps, if_neg h1]

theorem collapse_nil_noroot (cs : List (List Char)) :
    collapseComps false [] (pardir :: cs) = collapseComps false [pardir] cs := by
  have h1 : ¬((pardir : List Char) = [] ∨ pardir = ['.']) := by simp [pardir]
  simp [collapseComps, if_neg h1]

theorem collapse_push (root : Bool) (acc : List (List Char)) (c : List Char)
    (cs : List (List Char)) (h1 : ¬(c = [] ∨ c = ['.'])) (h2 : c ≠ pardir) :
    collapseComps root acc (c :: cs) = collapseComps root (c :: acc) cs := by
  simp only [collapseComps, if_neg h1, if_neg h2]

theorem collapse_good (root : Bool) (l : List (List Char)) :
    ∀ acc, AccInv root acc → (∀ c ∈ l, '\\' ∉ c) → GoodComps root (collapseComps root acc l) := by
  induction l with
  | nil =>
    intro acc hinv _
    obtain ⟨hclean, front, k, heq, hnp, hk⟩ := hinv
    subst heq
    simp only [collapseComps]
    constructor
    · intro c hc
      rw [List.mem_reverse] at hc
      exact hclean c hc
    · refine ⟨k, front.reverse, ?_, by simpa using hnp, hk⟩
      simp [List.reverse_append, List.reverse_replicate]
  | cons c cs ih =>
    intro acc hinv hfree
    have hcs : ∀ x ∈ cs, '\\' ∉ x := fun x hx => hfree x (by simp [hx])
    obtain ⟨hclean, front, k, heq, hnp, hk⟩ := hinv
    by_cases h1 : c = [] ∨ c = ['.']
    · rw [collapse_skip root acc c cs h1]
      exact ih acc ⟨hclean, front, k, heq, hnp, hk⟩ hcs
    by_cases h2 : c = pardir
    · subst h2
      rcases hacc : acc with _ | ⟨prev, rest⟩
      · cases root with
        | true =>
          rw [collapse_nil_root cs]
          exact ih [] (accInv_nil true) hcs
        | false =>
          rw [collapse_nil_noroot cs]
          refine ih [pardir] ⟨?_, [], 1, by simp, by simp, by simp⟩ hcs
          intro x hx
          simp at hx
          rw [hx]
          exact pardir_clean
      · subst hacc
        by_cases h3 : prev = pardir
        · subst h3
          rw [collapse_stack root rest cs]
          -- front must be empty, else its head is prev = pardir, contradicting hnp
          have hfront : front = [] := by
            rcases hf : front with _ | ⟨f0, fr⟩
            · rfl
            · rw [hf] at heq
              simp at heq
              exact absurd (by rw [hf, heq.1]; simp : pardir ∈ front) hnp
          rw [hfront, List.nil_append] at heq
          have hkpos : 1 ≤ k := by
            rcases k with _ | k'
            · simp at heq
            · omega
          have hroot : root ≠ true := fun hr => by have := hk hr; omega
          refine ih (pardir :: pardir :: rest)
            ⟨?_, [], k + 1, ?_, by simp, fun hr => absurd hr hroot⟩ hcs
          · intro x hx
            rcases List.mem_cons.mp hx with rfl | hx
            · exact pardir_clean
            rcases List.mem_cons.mp hx with rfl | hx
            · exact pardir_clean
            · exact hclean x (List.mem_cons_of_mem _ hx)
          · rw [List.nil_append, List.replicate_succ, heq]
        · rw [collapse_pop root prev rest cs h3]
          rcases hf : front with _ | ⟨f0, fr⟩
          · rw [hf, List.nil_append] at heq
            rcases k with _ | k'
            · simp at heq
            · rw [List.replicate_succ] at heq
              simp at heq
              exact absurd heq.1 h3
          · rw [hf] at heq hnp
            simp at heq
            refine ih rest ⟨?_, fr, k, heq.2, fun hm => hnp (by simp [hm]), hk⟩ hcs
            intro x hx
            exact hclean x (by simp [hx])
    · rw [collapse_push root acc c cs h1 h2]
      push_neg at h1
      refine ih (c :: acc) ⟨?_, c :: front, k, by rw [heq]; rfl, ?_, hk⟩ hcs
      · intro x hx
        rcases List.mem_cons.mp hx with rfl | hx
        · exact ⟨h1.1, h1.2, hfree x (by simp)⟩
        · exact hclean x hx
      · intro hm
        rcases List.mem_cons.mp hm with hm | hm
        · exact h2 hm.symm
        · exact hnp hm

theorem collapse_sub (root : Bool) (l : List (List Char)) :
    ∀ acc c, c ∈ collapseComps root acc l → c ∈ acc ∨ c ∈ l := by
  induction l with
  | nil =>
    intro acc c hc
    simp only [collapseComps, List.mem_reverse] at hc
    exact Or.inl hc
  | cons x cs ih =>
    intro acc c hc
    by_cases h1 : x = [] ∨ x = ['.']
    · rw [collapse_skip root acc x cs h1] at hc
      rcases ih acc c hc with h | h
      · exact Or.inl h
      · exact Or.inr (by simp [h])
    by_cases h2 : x = pardir
    · subst h2
      rcases hacc : acc with _ | ⟨prev, rest⟩
      · subst hacc
        cases root with
        | true =>
          rw [collapse_nil_root cs] at hc
          rcases ih [] c hc with h | h
          · exact Or.inl h
          · exact Or.inr (by simp [h])
        | false =>
          rw [collapse_nil_noroot cs] at hc
          rcases ih [pardir] c hc with h | h
          · simp at h
            exact Or.inr (by simp [h])
          · exact Or.inr (by simp [h])
      · subst hacc
        by_cases h3 : prev = pardir
        · subst h3
          rw [collapse_stack root rest cs] at hc
          rcases ih _ c hc with h | h
          · rcases List.mem_cons.mp h with rfl | h
            · exact Or.inr (by simp)
            · exact Or.inl h
          · exact Or.inr (by simp [h])
        · rw [collapse_pop root prev rest cs h3] at hc
          rcases ih rest c hc with h | h
          · exact Or.inl (List.mem_cons_of_mem _ h)
          · exact Or.inr (by simp [h])
    · rw [collapse_push root acc x cs h1 h2] at hc
      rcases ih _ c hc with h | h
      · rcases List.mem_cons.mp h with rfl | h
        · exact Or.inr (by simp)
        · exact Or.inl h
      · exact Or.inr (by simp [h])

theorem replaceAlt_no_slash (l : List Char) : '/' ∉ replaceAlt l := by
  intro h
  simp only [replaceAlt, List.mem_map] at h
  obtain ⟨c, _, hc⟩ := h
  by_cases h' : c = '/' <;> simp [h'] at hc

theorem replaceAlt_id (l : List Char) (h : '/' ∉ l) : replaceAlt l = l := by
  induction l with
  | nil => rfl
  | cons c cs ih =>
    have hc : c ≠ '/' := fun he => h (by simp [he])
    simp only [replaceAlt, List.map_cons, if_neg hc]
    rw [show List.map (fun c => if c = '/' then '\\' else c) cs = replaceAlt cs from rfl,
      ih (fun hm => h (by simp [hm]))]

theorem joinSep_chars (xs : List (List Char)) (x : Char) (hx : x ∈ joinSep xs) :
    x = '\\' ∨ ∃ c ∈ xs, x ∈ c := by
  induction xs with
  | nil => simp [joinSep] at hx
  | cons c cs ih =>
    cases cs with
    | nil => exact Or.inr ⟨c, by simp, hx⟩
    | cons y ys =>
      simp only [joinSep, List.mem_append, List.mem_cons] at hx
      rcases hx with hx | hx | hx
      · exact Or.inr ⟨c, by simp, hx⟩
      · exact Or.inl hx
      · rcases ih hx with h | ⟨d, hd, hxd⟩
        · exact Or.inl h
        · exact Or.inr ⟨d, by simp [List.mem_cons.mp hd], hxd⟩

theorem take_drop_mid (p : List Char) (n : Nat) :
    p.take n ++ ((p.drop n).take 1 ++ p.drop (n + 1)) = p := by
  have h1 : p.drop (n + 1) = (p.drop n).drop 1 := by
    rw [List.drop_drop, Nat.add_comm]
  rw [h1, List.take_append_drop, List.take_append_drop]

theorem splitroot_concat (p : List Char) :
    (splitroot p).1 ++ ((splitroot p).2.1 ++ (splitroot p).2.2) = p := by
  unfold splitroot
  dsimp only
  split
  · split
    · split
      · simp
      · split
        · simp
        · exact take_drop_mid p _
    · simpa using List.take_append_drop 1 p
  · split
    · split
      · exact take_drop_mid p 2
      · simp [List.take_append_drop]
    · simp

theorem splitroot_rel (p : List Char) (h1 : ¬(replaceAlt p).take 1 = ['\\'])
    (h2 : ¬((replaceAlt p).drop 1).take 1 = [':']) : splitroot p = ([], [], p) := by
  unfold splitroot
  dsimp only
  rw [if_neg h1, if_neg h2]

theorem splitroot_drive_abs (p : List Char) (h1 : ¬(replaceAlt p).take 1 = ['\\'])
    (h2 : ((replaceAlt p).drop 1).take 1 = [':'])
    (h3 : ((replaceAlt p).drop 2).take 1 = ['\\']) :
    splitroot p = (p.take 2, (p.drop 2).take 1, p.drop 3) := by
  unfold splitroot
  dsimp only
  rw [if_neg h1, if_pos h2, if_pos h3]

theorem splitroot_drive_rel (p : List Char) (h1 : ¬(replaceAlt p).take 1 = ['\\'])
    (h2 : ((replaceAlt p).drop 1).take 1 = [':'])
    (h3 : ¬((replaceAlt p).drop 2).take 1 = ['\\']) :
    splitroot p = (p.take 2, [], p.drop 2) := by
  unfold splitroot
  dsimp only
  rw [if_neg h1, if_pos h2, if_neg h3]

theorem splitroot_rooted (p : List Char) (h1 : (replaceAlt p).take 1 = ['\\'])
    (h2 : ¬(replaceAlt p).take 2 = ['\\', '\\']) :
    splitroot p = ([], p.take 1, p.drop 1) := by
  unfold splitroot
  dsimp only
  rw [if_pos h1, if_neg h2]

theorem splitroot_unc (p : List Char) (h1 : (replaceAlt p).take 1 = ['\\'])
    (h2 : (replaceAlt p).take 2 = ['\\', '\\']) (start : Nat)
    (hst : ((if ((replaceAlt p).take 8).map Char.toUpper = uncPfx then 8 else 2) : Nat) = start) :
    splitroot p =
      (match findFrom (replaceAlt p) '\\' start with
       | none => (p, [], [])
       | some index =>
         match findFrom (replaceAlt p) '\\' (index + 1) with
         | none => (p, [], [])
         | some index2 => (p.take index2, (p.drop index2).take 1, p.drop (index2 + 1))) := by
  unfold splitroot
  dsimp only
  rw [if_pos h1, if_pos h2, hst]

theorem pyNormPath_eq (p d r t : List Char) (hsr : splitroot (replaceAlt p) = (d, r, t)) :
    pyNormPath p =
      (d ++ r) ++ joinSep
        (if d ++ r = [] ∧ collapseComps (!r.isEmpty) [] (splitSep t) = [] then [['.']]
         else collapseComps (!r.isEmpty) [] (splitSep t)) := by
  unfold pyNormPath
  dsimp only
  rw [hsr]

theorem collapse_nil_chunk (b : Bool) : collapseComps b [] (splitSep []) = [] := rfl

theorem joinSep_nil : joinSep [] = [] := rfl

theorem pyNormPath_fix (q d r : List Char) (comps : List (List Char))
    (hnos : '/' ∉ q)
    (hsr : splitroot q = (d, r, joinSep comps))
    (hg : GoodComps (!r.isEmpty) comps)
    (hne : ¬(d ++ r = [] ∧ comps = [])) :
    pyNormPath q = q := by
  have hra : replaceAlt q = q := replaceAlt_id q hnos
  have hq : d ++ (r ++ joinSep comps) = q := by
    have := splitroot_concat q
    rw [hsr] at this
    exact this
  rw [pyNormPath_eq q d r (joinSep comps) (by rw [hra]; exact hsr)]
  by_cases hcne : comps = []
  · subst hcne
    rw [joinSep_nil, collapse_nil_chunk]
    have hdr : ¬(d ++ r = []) := fun hh => hne ⟨hh, rfl⟩
    rw [if_neg (by simp [hdr]), joinSep_nil]
    rw [joinSep_nil] at hq
    simp only [List.append_nil] at hq ⊢
    exact hq
  · have hfree : ∀ ch ∈ comps, '\\' ∉ ch := fun ch hch => (hg.1 ch hch).2.2
    rw [splitSep_joinSep comps hcne hfree, collapse_good_fix _ comps hg,
      if_neg (by simp [hcne])]
    rw [← List.append_assoc] at hq
    exact hq

theorem upperDrive_no_colon (l : List Char) (h : l[1]? ≠ some ':') : upperDrive l = l := by
  match l with
  | [] => rfl
  | [c0] => rfl
  | c0 :: c1 :: rest =>
    have : c1 ≠ ':' := by simpa using h
    simp [upperDrive, this]

theorem upperDrive_colon (c0 : Char) (rest : List Char) :
    upperDrive (c0 :: ':' :: rest) = Char.toUpper c0 :: ':' :: rest := by
  simp [upperDrive]

theorem upperDrive_bs (rest : List Char) : upperDrive ('\\' :: rest) = '\\' :: rest := by
  match rest with
  | [] => rfl
  | c1 :: rest' =>
    by_cases h : c1 = ':'
    · subst h
      rw [upperDrive_colon]
      have : ('\\' : Char).toUpper = '\\' := by decide
      rw [this]
    · simp [upperDrive, h]

theorem upperDrive_idem (l : List Char) : upperDrive (upperDrive l) = upperDrive l := by
  match l with
  | [] => rfl
  | [c0] => rfl
  | c0 :: c1 :: rest =>
    by_cases h : c1 = ':'
    · subst h
      rw [upperDrive_colon, upperDrive_colon, toUpper_toUpper]
    · simp [upperDrive, h]

theorem joinSep_cons (c : List Char) (y : List Char) (ys : List (List Char)) :
    joinSep (c :: y :: ys) = c ++ '\\' :: joinSep (y :: ys) := rfl

theorem joinSep_single (c : List Char) : joinSep [c] = c := rfl

theorem pyNormPath_no_slash (l : List Char) : '/' ∉ pyNormPath l := by
  intro hmem
  rcases hsr : splitroot (replaceAlt l) with ⟨d, dr⟩
  rcases hdr : dr with ⟨r, t⟩
  subst hdr
  rw [pyNormPath_eq l d r t hsr] at hmem
  have hsfree : '/' ∉ replaceAlt l := replaceAlt_no_slash l
  have hsub : ∀ x, x ∈ d ∨ x ∈ r ∨ x ∈ t → x ∈ replaceAlt l := by
    intro x hx
    have hcat := splitroot_concat (replaceAlt l)
    rw [hsr] at hcat
    rw [← hcat]
    simp only [List.mem_append]
    tauto
  rcases List.mem_append.mp hmem with hm | hm
  · rcases List.mem_append.mp hm with hm | hm
    · exact hsfree (hsub _ (Or.inl hm))
    · exact hsfree (hsub _ (Or.inr (Or.inl hm)))
  · rcases joinSep_chars _ _ hm with h | ⟨c, hc, hxc⟩
    · exact absurd h (by decide)
    · by_cases hif : d ++ r = [] ∧ collapseComps (!r.isEmpty) [] (splitSep t) = []
      · rw [if_pos hif] at hc
        simp at hc
        rw [hc] at hxc
        simp at hxc
      · rw [if_neg hif] at hc
        rcases collapse_sub _ _ [] c hc with h | h
        · simp at h
        · exact hsfree (hsub _ (Or.inr (Or.inr (splitSep_chars t c h '/' hxc))))

theorem joinSep_shape (c0 : Char) (c' : List Char) (cs : List (List Char)) :
    joinSep ((c0 :: c') :: cs) =
      c0 :: (c' ++ (if cs.isEmpty then [] else '\\' :: joinSep cs)) := by
  cases cs with
  | nil => simp [joinSep_single]
  | cons y ys => simp [joinSep_cons]

theorem idem_rel (s : List Char) (hnos : '/' ∉ s)
    (h1 : ¬ s.take 1 = ['\\']) (h3 : ¬ (s.drop 1).take 1 = [':'])
    (hcol : ':' ∉ s.drop 2) :
    upperDrive (pyNormPath (upperDrive (pyNormPath s))) = upperDrive (pyNormPath s) := by
  have hra : replaceAlt s = s := replaceAlt_id s hnos
  have hsr : splitroot s = ([], [], s) :=
    splitroot_rel s (by rw [hra]; exact h1) (by rw [hra]; exact h3)
  have hgood : GoodComps false (collapseComps false [] (splitSep s)) :=
    collapse_good false (splitSep s) [] (accInv_nil false) (splitSep_sep_free s)
  have hq0 : pyNormPath s =
      joinSep (if collapseComps false [] (splitSep s) = [] then [['.']]
               else collapseComps false [] (splitSep s)) := by
    rw [pyNormPath_eq s [] [] s (by rw [hra]; exact hsr)]
    simp only [List.nil_append, List.isEmpty_nil, Bool.not_true, true_and]
  rcases hc : collapseComps false [] (splitSep s) with _ | ⟨c, cs⟩
  · have hq0' : pyNormPath s = joinSep [['.']] := by rw [hq0, hc, if_pos rfl]
    rw [hq0']
    decide
  · have hq0' : pyNormPath s = joinSep (c :: cs) := by
      rw [hq0, hc, if_neg (by simp)]
    rw [hc] at hgood
    have hcc : CleanComp c := hgood.1 c (by simp)
    obtain ⟨c0, c', rfl⟩ : ∃ c0 c', c = c0 :: c' := by
      rcases c with _ | ⟨c0, c'⟩
      · exact absurd rfl hcc.1
      · exact ⟨_, _, rfl⟩
    rw [hq0']
    rw [joinSep_shape] at *
    have hc0 : c0 ≠ '\\' := fun he => hcc.2.2 (by rw [he]; simp)
    -- the char at index 1 of the result is not ':'
    have hb : (c0 :: (c' ++ (if cs.isEmpty then [] else '\\' :: joinSep cs)))[1]? ≠ some ':' := by
      rcases c' with _ | ⟨c1, c''⟩
      · by_cases hcs : cs.isEmpty
        · rw [if_pos hcs]
          intro hcon
          simp at hcon
        · rw [if_neg hcs]
          intro hcon
          simp at hcon
      · simp only [List.cons_append, List.getElem?_cons_succ, List.getElem?_cons_zero]
        intro hcon
        have hc1 : c1 = ':' := by simpa using hcon
        subst hc1
        have hmem : (c0 :: ':' :: c'') ∈ splitSep s := by
          rcases collapse_sub false (splitSep s) [] (c0 :: ':' :: c'')
              (by rw [hc]; simp) with h | h
          · simp at h
          · exact h
        obtain ⟨i, hi1, hi2⟩ :=
          splitSep_shift s _ hmem 1 ':' (by simp)
        rcases Nat.lt_or_ge i 2 with hlt | hge
        · have : i = 1 := by omega
          subst this
          exact h3 ((drop_take_one s 1 ':').mpr hi2)
        · have : (s.drop 2)[i - 2]? = some ':' := by
            rw [List.getElem?_drop]
            have : 2 + (i - 2) = i := by omega
            rw [this]
            exact hi2
          exact hcol (List.getElem?_mem this)
    have hup : upperDrive (c0 :: (c' ++ (if cs.isEmpty then [] else '\\' :: joinSep cs))) =
        c0 :: (c' ++ (if cs.isEmpty then [] else '\\' :: joinSep cs)) :=
      upperDrive_no_colon _ hb
    have hnosq : '/' ∉ (c0 :: (c' ++ (if cs.isEmpty then [] else '\\' :: joinSep cs))) := by
      have := pyNormPath_no_slash s
      rw [hq0'] at this
      exact this
    have hraq := replaceAlt_id _ hnosq
    have hsrq : splitroot (c0 :: (c' ++ (if cs.isEmpty then [] else '\\' :: joinSep cs))) =
        ([], [], (c0 :: (c' ++ (if cs.isEmpty then [] else '\\' :: joinSep cs)))) := by
      apply splitroot_rel
      · rw [hraq]
        intro hcon
        apply hc0
        simpa using hcon
      · rw [hraq]
        intro hcon
        exact hb ((drop_take_one _ 1 ':').mp hcon)
    have hfix : pyNormPath (c0 :: (c' ++ (if cs.isEmpty then [] else '\\' :: joinSep cs))) =
        (c0 :: (c' ++ (if cs.isEmpty then [] else '\\' :: joinSep cs))) := by
      apply pyNormPath_fix _ [] [] ((c0 :: c') :: cs) hnosq
      · rw [joinSep_shape]
        exact hsrq
      · exact hgood
      · simp
    rw [hup, hfix, hup]

theorem joinSep_take1_ne_bs (comps : List (List Char))
    (hclean : ∀ c ∈ comps, CleanComp c) : ¬ (joinSep comps).take 1 = ['\\'] := by
  rcases comps with _ | ⟨c, cs⟩
  · simp [joinSep_nil]
  · have hcc : CleanComp c := hclean c (by simp)
    obtain ⟨c0, c', rfl⟩ : ∃ c0 c', c = c0 :: c' := by
      rcases c with _ | ⟨c0, c'⟩
      · exact absurd rfl hcc.1
      · exact ⟨_, _, rfl⟩
    rw [joinSep_shape]
    intro hcon
    have : c0 = '\\' := by simpa using hcon
    exact hcc.2.2 (by rw [this]; simp)

theorem idem_drive (s : List Char) (hnos : '/' ∉ s)
    (h1 : ¬ s.take 1 = ['\\']) (h2 : (s.drop 1).take 1 = [':']) :
    upperDrive (pyNormPath (upperDrive (pyNormPath s))) = upperDrive (pyNormPath s) := by
  have hra : replaceAlt s = s := replaceAlt_id s hnos
  have hs1 : s[1]? = some ':' := (drop_take_one s 1 ':').mp h2
  obtain ⟨a, b, t', rfl⟩ : ∃ a b t', s = a :: b :: t' := by
    rcases s with _ | ⟨a, _ | ⟨b, t'⟩⟩
    · simp at hs1
    · simp at hs1
    · exact ⟨_, _, _, rfl⟩
  have hb : b = ':' := by simpa using hs1
  subst hb
  have hane : a ≠ '\\' := by
    intro he
    exact h1 (by rw [he]; rfl)
  have hanos : a ≠ '/' := fun he => hnos (by rw [he]; simp)
  have hua : Char.toUpper a ≠ '\\' := toUpper_ne a '\\' (by decide) hane
  have huas : Char.toUpper a ≠ '/' := toUpper_ne a '/' (by decide) hanos
  by_cases h4 : ((a :: ':' :: t').drop 2).take 1 = ['\\']
  · -- absolute drive-letter path: X:\...
    obtain ⟨t'', rfl⟩ : ∃ t'', t' = '\\' :: t'' := by
      have h0 : (a :: ':' :: t')[2]? = some '\\' := (drop_take_one _ 2 '\\').mp h4
      rcases t' with _ | ⟨x, t''⟩
      · simp at h0
      · exact ⟨t'', by simp at h0; rw [h0]⟩
    have hsr : splitroot (a :: ':' :: '\\' :: t'') = ([a, ':'], ['\\'], t'') := by
      rw [splitroot_drive_abs _ (by rw [hra]; exact h1) (by rw [hra]; exact h2)
        (by rw [hra]; exact h4)]
      rfl
    have hgood : GoodComps true (collapseComps true [] (splitSep t'')) :=
      collapse_good true (splitSep t'') [] (accInv_nil true) (splitSep_sep_free t'')
    have hq0 : pyNormPath (a :: ':' :: '\\' :: t'') =
        a :: ':' :: '\\' :: joinSep (collapseComps true [] (splitSep t'')) := by
      rw [pyNormPath_eq _ [a, ':'] ['\\'] t'' (by rw [hra]; exact hsr)]
      rw [if_neg (by simp)]
      rfl
    rw [hq0, upperDrive_colon]
    have hnosq : '/' ∉ Char.toUpper a :: ':' :: '\\' ::
        joinSep (collapseComps true [] (splitSep t'')) := by
      intro hm
      rcases List.mem_cons.mp hm with he | hm
      · exact huas he.symm
      rcases List.mem_cons.mp hm with he | hm
      · exact absurd he.symm (by decide)
      rcases List.mem_cons.mp hm with he | hm
      · exact absurd he.symm (by decide)
      · have := pyNormPath_no_slash (a :: ':' :: '\\' :: t'')
        rw [hq0] at this
        exact this (by simp [hm])
    have hraq := replaceAlt_id _ hnosq
    have hsrq : splitroot (Char.toUpper a :: ':' :: '\\' ::
        joinSep (collapseComps true [] (splitSep t''))) =
        ([Char.toUpper a, ':'], ['\\'],
          joinSep (collapseComps true [] (splitSep t''))) := by
      rw [splitroot_drive_abs _ (by rw [hraq]; intro hcon; exact hua (by simpa using hcon))
        (by rw [hraq]; rfl) (by rw [hraq]; rfl)]
      rfl
    have hfix : pyNormPath (Char.toUpper a :: ':' :: '\\' ::
        joinSep (collapseComps true [] (splitSep t''))) =
        Char.toUpper a :: ':' :: '\\' ::
          joinSep (collapseComps true [] (splitSep t'')) := by
      exact pyNormPath_fix _ [Char.toUpper a, ':'] ['\\']
        (collapseComps true [] (splitSep t'')) hnosq hsrq hgood (by simp)
    rw [hfix, upperDrive_colon, toUpper_toUpper]
  · -- drive-relative path: X:foo
    have hsr : splitroot (a :: ':' :: t') = ([a, ':'], [], t') := by
      rw [splitroot_drive_rel _ (by rw [hra]; exact h1) (by rw [hra]; exact h2)
        (by rw [hra]; exact h4)]
      rfl
    have hgood : GoodComps false (collapseComps false [] (splitSep t')) :=
      collapse_good false (splitSep t') [] (accInv_nil false) (splitSep_sep_free t')
    have hq0 : pyNormPath (a :: ':' :: t') =
        a :: ':' :: joinSep (collapseComps false [] (splitSep t')) := by
      rw [pyNormPath_eq _ [a, ':'] [] t' (by rw [hra]; exact hsr)]
      rw [if_neg (by simp)]
      rfl
    rw [hq0, upperDrive_colon]
    have hnosq : '/' ∉ Char.toUpper a :: ':' ::
        joinSep (collapseComps false [] (splitSep t')) := by
      intro hm
      rcases List.mem_cons.mp hm with he | hm
      · exact huas he.symm
      rcases List.mem_cons.mp hm with he | hm
      · exact absurd he.symm (by decide)
      · have := pyNormPath_no_slash (a :: ':' :: t')
        rw [hq0] at this
        exact this (by simp [hm])
    have hraq := replaceAlt_id _ hnosq
    have hsrq : splitroot (Char.toUpper a :: ':' ::
        joinSep (collapseComps false [] (splitSep t'))) =
        ([Char.toUpper a, ':'], [],
          joinSep (collapseComps false [] (splitSep t'))) := by
      rw [splitroot_drive_rel _ (by rw [hraq]; intro hcon; exact hua (by simpa using hcon))
        (by rw [hraq]; rfl)
        (by rw [hraq]; exact joinSep_take1_ne_bs _ hgood.1)]
      rfl
    have hfix : pyNormPath (Char.toUpper a :: ':' ::
        joinSep (collapseComps false [] (splitSep t'))) =
        Char.toUpper a :: ':' ::
          joinSep (collapseComps false [] (splitSep t')) := by
      exact pyNormPath_fix _ [Char.toUpper a, ':'] []
        (collapseComps false [] (splitSep t')) hnosq hsrq hgood (by simp)
    rw [hfix, upperDrive_colon, toUpper_toUpper]

theorem idem_rooted (s : List Char) (hnos : '/' ∉ s)
    (h1 : s.take 1 = ['\\']) (h2 : ¬ s.take 2 = ['\\', '\\']) :
    upperDrive (pyNormPath (upperDrive (pyNormPath s))) = upperDrive (pyNormPath s) := by
  have hra : replaceAlt s = s := replaceAlt_id s hnos
  obtain ⟨t, rfl⟩ : ∃ t, s = '\\' :: t := by
    rcases s with _ | ⟨c, t⟩
    · simp at h1
    · exact ⟨t, by have : c = '\\' := by simpa using h1
                   rw [this]⟩
  have hsr : splitroot ('\\' :: t) = ([], ['\\'], t) := by
    rw [splitroot_rooted _ (by rw [hra]; exact h1) (by rw [hra]; exact h2)]
    rfl
  have hgood : GoodComps true (collapseComps true [] (splitSep t)) :=
    collapse_good true (splitSep t) [] (accInv_nil true) (splitSep_sep_free t)
  have hq0 : pyNormPath ('\\' :: t) =
      '\\' :: joinSep (collapseComps true [] (splitSep t)) := by
    rw [pyNormPath_eq _ [] ['\\'] t (by rw [hra]; exact hsr)]
    rw [if_neg (by simp)]
    rfl
  rw [hq0, upperDrive_bs]
  have hnosq : '/' ∉ '\\' :: joinSep (collapseComps true [] (splitSep t)) := by
    have := pyNormPath_no_slash ('\\' :: t)
    rw [hq0] at this
    exact this
  have hraq := replaceAlt_id _ hnosq
  have hsrq : splitroot ('\\' :: joinSep (collapseComps true [] (splitSep t))) =
      ([], ['\\'], joinSep (collapseComps true [] (splitSep t))) := by
    rw [splitroot_rooted _ (by rw [hraq]; rfl)
      (by
        rw [hraq]
        intro hcon
        apply joinSep_take1_ne_bs _ hgood.1
        have hlen : joinSep (collapseComps true [] (splitSep t)) ≠ [] := by
          intro hz
          rw [hz] at hcon
          simp at hcon
        rcases hj : joinSep (collapseComps true [] (splitSep t)) with _ | ⟨x, xs⟩
        · exact absurd hj hlen
        · rw [hj] at hcon
          simp at hcon
          rw [hcon]
          rfl)]
    rfl
  have hfix : pyNormPath ('\\' :: joinSep (collapseComps true [] (splitSep t))) =
      '\\' :: joinSep (collapseComps true [] (splitSep t)) :=
    pyNormPath_fix _ [] ['\\'] (collapseComps true [] (splitSep t)) hnosq hsrq hgood (by simp)
  rw [hfix, upperDrive_bs]

theorem take_one_of (l : List Char) (a : Char) (h : l[0]? = some a) : l.take 1 = [a] :=
  (take_one_eq_iff l a).mpr h

theorem take_two_of (l : List Char) (a b : Char) (h0 : l[0]? = some a) (h1 : l[1]? = some b) :
    l.take 2 = [a, b] := by
  rcases l with _ | ⟨x, _ | ⟨y, r⟩⟩
  · simp at h0
  · simp at h1
  · simp at h0 h1
    rw [h0, h1]
    rfl

theorem idem_whole (s : List Char) (hnos : '/' ∉ s) (hsne : s ≠ [])
    (hs1 : s[1]? ≠ some ':')
    (hsr : splitroot s = (s, [], [])) :
    upperDrive (pyNormPath (upperDrive (pyNormPath s))) = upperDrive (pyNormPath s) := by
  have hq0 : pyNormPath s = s := by
    rw [pyNormPath_eq s s [] [] (by rw [replaceAlt_id s hnos]; exact hsr)]
    rw [collapse_nil_chunk, if_neg (by simp [hsne]), joinSep_nil]
    simp
  have hup : upperDrive s = s := upperDrive_no_colon s hs1
  rw [hq0, hup, hq0, hup]

theorem splitroot_unc_none (p : List Char) (h1 : (replaceAlt p).take 1 = ['\\'])
    (h2 : (replaceAlt p).take 2 = ['\\', '\\']) (start : Nat)
    (hst : ((if ((replaceAlt p).take 8).map Char.toUpper = uncPfx then 8 else 2) : Nat) = start)
    (hf : findFrom (replaceAlt p) '\\' start = none) : splitroot p = (p, [], []) := by
  rw [splitroot_unc p h1 h2 start hst]
  simp only [hf]

theorem splitroot_unc_none2 (p : List Char) (h1 : (replaceAlt p).take 1 = ['\\'])
    (h2 : (replaceAlt p).take 2 = ['\\', '\\']) (start i1 : Nat)
    (hst : ((if ((replaceAlt p).take 8).map Char.toUpper = uncPfx then 8 else 2) : Nat) = start)
    (hf1 : findFrom (replaceAlt p) '\\' start = some i1)
    (hf2 : findFrom (replaceAlt p) '\\' (i1 + 1) = none) : splitroot p = (p, [], []) := by
  rw [splitroot_unc p h1 h2 start hst]
  simp only [hf1, hf2]

theorem splitroot_unc_found (p : List Char) (h1 : (replaceAlt p).take 1 = ['\\'])
    (h2 : (replaceAlt p).take 2 = ['\\', '\\']) (start i1 i2 : Nat)
    (hst : ((if ((replaceAlt p).take 8).map Char.toUpper = uncPfx then 8 else 2) : Nat) = start)
    (hf1 : findFrom (replaceAlt p) '\\' start = some i1)
    (hf2 : findFrom (replaceAlt p) '\\' (i1 + 1) = some i2) :
    splitroot p = (p.take i2, (p.drop i2).take 1, p.drop (i2 + 1)) := by
  rw [splitroot_unc p h1 h2 start hst]
  simp only [hf1, hf2]

theorem idem_unc_found (S J : List Char) (i1 i2 st : Nat) (comps : List (List Char))
    (hS2 : S.take 2 = ['\\', '\\'])
    (hnosS : '/' ∉ S) (hnosJ : '/' ∉ J)
    (hst : ((if ((S.take 8).map Char.toUpper = uncPfx) then 8 else 2) : Nat) = st)
    (hst2 : 2 ≤ st)
    (hf1 : findFrom S '\\' st = some i1) (hf2 : findFrom S '\\' (i1 + 1) = some i2)
    (hJdef : J = joinSep comps)
    (hgood : GoodComps true comps) :
    pyNormPath (S.take (i2 + 1) ++ J) = S.take (i2 + 1) ++ J := by
  obtain ⟨r, rfl⟩ : ∃ r, S = '\\' :: '\\' :: r := by
    rcases S with _ | ⟨a, _ | ⟨b, r⟩⟩
    · simp at hS2
    · simp [List.take] at hS2
    · have hab : a = '\\' ∧ b = '\\' := by simpa using hS2
      exact ⟨r, by rw [hab.1, hab.2]⟩
  set S := '\\' :: '\\' :: r with hSdef
  obtain ⟨hi1st, hi1v, hi1min⟩ := findFrom_some _ '\\' st i1 hf1
  obtain ⟨hi2st, hi2v, hi2min⟩ := findFrom_some _ '\\' (i1 + 1) i2 hf2
  have hlt : i2 < S.length := (List.getElem?_eq_some_iff.mp hi2v).1
  have hTlen : (S.take (i2 + 1)).length = i2 + 1 := by
    rw [List.length_take]
    omega
  have hQj : ∀ j, j ≤ i2 → (S.take (i2 + 1) ++ J)[j]? = S[j]? := by
    intro j hj
    rw [List.getElem?_append_left (by omega), List.getElem?_take_of_lt (by omega)]
  have hnosQ : '/' ∉ S.take (i2 + 1) ++ J := by
    intro hm
    rcases List.mem_append.mp hm with hm | hm
    · exact hnosS (List.take_subset _ _ hm)
    · exact hnosJ hm
  have hraQ := replaceAlt_id _ hnosQ
  have hQ0 : (S.take (i2 + 1) ++ J)[0]? = some '\\' := by
    rw [hQj 0 (by omega), hSdef]
    rfl
  have hQ1 : (S.take (i2 + 1) ++ J)[1]? = some '\\' := by
    rw [hQj 1 (by omega), hSdef]
    simp
  have hstart2 :
      ((if (((S.take (i2 + 1) ++ J).take 8).map Char.toUpper = uncPfx) then 8 else 2) : Nat) =
        st := by
    rcases Nat.lt_or_ge i2 7 with hsmall | hbig
    · have hcondS : ¬ ((S.take 8).map Char.toUpper = uncPfx) := by
        intro hcond
        rw [if_pos hcond] at hst
        omega
      have hstv : st = 2 := by
        rw [if_neg hcondS] at hst
        omega
      have hcondQ : ¬ (((S.take (i2 + 1) ++ J).take 8).map Char.toUpper = uncPfx) := by
        intro hcond
        have hpoint : ∀ j, j ≤ i2 → Option.map Char.toUpper S[j]? = uncPfx[j]? := by
          intro j hj
          have hcg := congrArg (fun l => l[j]?) hcond
          simp only [List.getElem?_map] at hcg
          rw [List.getElem?_take_of_lt (by omega), hQj j hj] at hcg
          exact hcg
        rcases Nat.lt_or_ge i2 4 with h4 | h4
        · have hi1e : i1 = 2 := by omega
          have hp := hpoint 2 (by omega)
          rw [hi1e] at hi1v
          rw [hi1v] at hp
          exact absurd hp (by decide)
        · have hp := hpoint i2 (by omega)
          rw [hi2v] at hp
          interval_cases i2 <;> exact absurd hp (by decide)
      rw [if_neg hcondQ, hstv]
    · have htk8 : (S.take (i2 + 1) ++ J).take 8 = S.take 8 := by
        rw [List.take_append_of_le_length (by omega), List.take_take]
        congr 1
        omega
      rw [htk8]
      exact hst
  have hf1Q : findFrom (S.take (i2 + 1) ++ J) '\\' st = some i1 := by
    apply findFrom_of _ _ _ _ hi1st
    · rw [hQj i1 (by omega)]
      exact hi1v
    · intro j hj1 hj2
      rw [hQj j (by omega)]
      exact hi1min j hj1 hj2
  have hf2Q : findFrom (S.take (i2 + 1) ++ J) '\\' (i1 + 1) = some i2 := by
    apply findFrom_of _ _ _ _ hi2st
    · rw [hQj i2 (by omega)]
      exact hi2v
    · intro j hj1 hj2
      rw [hQj j (by omega)]
      exact hi2min j hj1 hj2
  have hsrQ : splitroot (S.take (i2 + 1) ++ J) = ((S.take (i2 + 1) ++ J).take i2, ['\\'], J) := by
    rw [splitroot_unc_found _ (by rw [hraQ]; exact take_one_of _ '\\' hQ0)
      (by rw [hraQ]; exact take_two_of _ '\\' '\\' hQ0 hQ1) st i1 i2
      (by rw [hraQ]; exact hstart2) (by rw [hraQ]; exact hf1Q) (by rw [hraQ]; exact hf2Q)]
    have hx2 : ((S.take (i2 + 1) ++ J).drop i2).take 1 = ['\\'] := by
      apply (drop_take_one _ i2 '\\').mpr
      rw [hQj i2 (by omega)]
      exact hi2v
    have hx3 : (S.take (i2 + 1) ++ J).drop (i2 + 1) = J := List.drop_left' hTlen
    rw [hx2, hx3]
  have hQtake : (S.take (i2 + 1) ++ J).take i2 = S.take i2 := by
    rw [List.take_append_of_le_length (by omega), List.take_take]
    congr 1
    omega
  have hsrQ2 : splitroot (S.take (i2 + 1) ++ J) = (S.take i2, ['\\'], joinSep comps) := by
    rw [hsrQ, hQtake, hJdef]
  have hfix := pyNormPath_fix (S.take (i2 + 1) ++ J) (S.take i2) ['\\'] comps hnosQ hsrQ2
    hgood (by simp)
  exact hfix

theorem idem_unc (s : List Char) (hnos : '/' ∉ s) (h2 : s.take 2 = ['\\', '\\']) :
    upperDrive (pyNormPath (upperDrive (pyNormPath s))) = upperDrive (pyNormPath s) := by
  have hra : replaceAlt s = s := replaceAlt_id s hnos
  obtain ⟨t, rfl⟩ : ∃ t, s = '\\' :: '\\' :: t := by
    rcases s with _ | ⟨a, _ | ⟨b, t⟩⟩
    · simp at h2
    · simp [List.take] at h2
    · have : a = '\\' ∧ b = '\\' := by simpa using h2
      exact ⟨t, by rw [this.1, this.2]⟩
  have h1 : ('\\' :: '\\' :: t).take 1 = ['\\'] := rfl
  rcases hst : (if ((('\\' :: '\\' :: t).take 8).map Char.toUpper = uncPfx) then (8 : Nat) else 2)
      with st
  have hst2 : 2 ≤ st := by
    rw [← hst]
    split <;> omega
  rcases hf1 : findFrom ('\\' :: '\\' :: t) '\\' st with _ | i1
  · have hsr : splitroot ('\\' :: '\\' :: t) = ('\\' :: '\\' :: t, [], []) :=
      splitroot_unc_none _ (by rw [hra]; exact h1) (by rw [hra]; exact h2) st
        (by rw [hra]; exact hst) (by rw [hra]; exact hf1)
    exact idem_whole _ hnos (by simp) (by simp) hsr
  · rcases hf2 : findFrom ('\\' :: '\\' :: t) '\\' (i1 + 1) with _ | i2
    · have hsr : splitroot ('\\' :: '\\' :: t) = ('\\' :: '\\' :: t, [], []) :=
        splitroot_unc_none2 _ (by rw [hra]; exact h1) (by rw [hra]; exact h2) st i1
          (by rw [hra]; exact hst) (by rw [hra]; exact hf1) (by rw [hra]; exact hf2)
      exact idem_whole _ hnos (by simp) (by simp) hsr
    · obtain ⟨hi1st, hi1v, hi1min⟩ := findFrom_some _ '\\' st i1 hf1
      obtain ⟨hi2st, hi2v, hi2min⟩ := findFrom_some _ '\\' (i1 + 1) i2 hf2
      have hlt : i2 < ('\\' :: '\\' :: t).length := (List.getElem?_eq_some_iff.mp hi2v).1
      have hsr : splitroot ('\\' :: '\\' :: t) =
          (('\\' :: '\\' :: t).take i2, ['\\'], ('\\' :: '\\' :: t).drop (i2 + 1)) := by
        rw [splitroot_unc_found _ (by rw [hra]; exact h1) (by rw [hra]; exact h2) st i1 i2
          (by rw [hra]; exact hst) (by rw [hra]; exact hf1) (by rw [hra]; exact hf2)]
        rw [(drop_take_one _ i2 '\\').mpr hi2v]
      have hgood : GoodComps true
          (collapseComps true [] (splitSep (('\\' :: '\\' :: t).drop (i2 + 1)))) :=
        collapse_good true _ [] (accInv_nil true) (splitSep_sep_free _)
      have htakene : ('\\' :: '\\' :: t).take i2 ≠ [] := by
        rcases i2 with _ | _
        · omega
        · simp
      have hT : ('\\' :: '\\' :: t).take i2 ++ ['\\'] = ('\\' :: '\\' :: t).take (i2 + 1) := by
        rw [List.take_succ, hi2v]
        rfl
      have hq0 : pyNormPath ('\\' :: '\\' :: t) =
          ('\\' :: '\\' :: t).take (i2 + 1) ++
            joinSep (collapseComps true [] (splitSep (('\\' :: '\\' :: t).drop (i2 + 1)))) := by
        rw [pyNormPath_eq _ (('\\' :: '\\' :: t).take i2) ['\\']
          (('\\' :: '\\' :: t).drop (i2 + 1)) (by rw [hra]; exact hsr)]
        rw [if_neg (by simp)]
        rw [← hT]
        simp
      have hnosQ : '/' ∉ ('\\' :: '\\' :: t).take (i2 + 1) ++
          joinSep (collapseComps true [] (splitSep (('\\' :: '\\' :: t).drop (i2 + 1)))) := by
        have := pyNormPath_no_slash ('\\' :: '\\' :: t)
        rw [hq0] at this
        exact this
      have hnosJ : '/' ∉
          joinSep (collapseComps true [] (splitSep (('\\' :: '\\' :: t).drop (i2 + 1)))) := by
        intro hm
        exact hnosQ (List.mem_append.mpr (Or.inr hm))
      have hfix := idem_unc_found ('\\' :: '\\' :: t)
        (joinSep (collapseComps true [] (splitSep (('\\' :: '\\' :: t).drop (i2 + 1)))))
        i1 i2 st _ h2 hnos hnosJ hst hst2 hf1 hf2 rfl hgood
      have hupQ : upperDrive (('\\' :: '\\' :: t).take (i2 + 1) ++
          joinSep (collapseComps true [] (splitSep (('\\' :: '\\' :: t).drop (i2 + 1))))) =
          ('\\' :: '\\' :: t).take (i2 + 1) ++
            joinSep (collapseComps true [] (splitSep (('\\' :: '\\' :: t).drop (i2 + 1)))) := by
        have h01 : ('\\' :: '\\' :: t).take (i2 + 1) = '\\' :: ('\\' :: t).take i2 := rfl
        rw [h01, List.cons_append]
        exact upperDrive_bs _
      rw [hq0, hupQ, hfix, hupQ]

theorem replaceAlt_idem (l : List Char) : replaceAlt (replaceAlt l) = replaceAlt l :=
  replaceAlt_id _ (replaceAlt_no_slash l)

theorem pyNormPath_replaceAlt (l : List Char) : pyNormPath (replaceAlt l) = pyNormPath l := by
  unfold pyNormPath
  dsimp only
  rw [replaceAlt_idem]

theorem idem_chars (s : List Char) (hnos : '/' ∉ s) (hcol : ':' ∉ s.drop 2) :
    upperDrive (pyNormPath (upperDrive (pyNormPath s))) = upperDrive (pyNormPath s) := by
  by_cases h1 : s.take 1 = ['\\']
  · by_cases h2 : s.take 2 = ['\\', '\\']
    · exact idem_unc s hnos h2
    · exact idem_rooted s hnos h1 h2
  · by_cases h3 : (s.drop 1).take 1 = [':']
    · exact idem_drive s hnos h1 h3
    · exact idem_rel s hnos h1 h3 hcol

/-- Claim C8 (amended): `normalize_path` is idempotent on every path string in which the character `:` occurs at no index beyond 1 — in particular on every ordinary path, where a colon can only be the drive separator. -/
theorem normalize_path_idem (p : String) (h : ':' ∉ p.data.drop 2) :
    normalize_path (normalize_path p) = normalize_path p := by
  show (⟨upperDrive (pyNormPath (upperDrive (pyNormPath p.data)))⟩ : String) =
    ⟨upperDrive (pyNormPath p.data)⟩
  have hkey : upperDrive (pyNormPath (upperDrive (pyNormPath (replaceAlt p.data)))) =
      upperDrive (pyNormPath (replaceAlt p.data)) := by
    apply idem_chars
    · exact replaceAlt_no_slash p.data
    · intro hm
      have hdm : (replaceAlt p.data).drop 2 = replaceAlt (p.data.drop 2) := by
        unfold replaceAlt
        rw [← List.map_drop]
      rw [hdm] at hm
      simp only [replaceAlt, List.mem_map] at hm
      obtain ⟨x, hx1, hx2⟩ := hm
      by_cases hx : x = '/'
      · rw [if_pos hx] at hx2
        exact absurd hx2 (by decide)
      · rw [if_neg hx] at hx2
        rw [hx2] at hx1
        exact h hx1
  rw [pyNormPath_replaceAlt] at hkey
  rw [hkey]



/-! ## Lemmas about the registry model, backup and restore -/

theorem regValueOf_POWER : regValueOf Pref.POWER = "GpuPreference=1;" := rfl

theorem regValueOf_PERF : regValueOf Pref.PERF = "GpuPreference=2;" := rfl

theorem pyPref_code (pr : Pref) : pyPrefOfJson (.jint pr.toInt) = some pr := by
  cases pr <;> rfl

theorem fromRegValue_regValueOf (pr : Pref) : Pref.fromRegValue (regValueOf pr) = pr := by
  cases pr <;> rfl

theorem startsWithChars_iff (n h : List Char) :
    startsWithChars n h = true ↔ ∃ v, h = n ++ v := by
  induction n generalizing h with
  | nil => simp [startsWithChars]
  | cons a as ih =>
    cases h with
    | nil =>
      simp [startsWithChars]
    | cons b bs =>
      simp only [startsWithChars, Bool.and_eq_true, beq_iff_eq]
      rw [ih bs]
      constructor
      · rintro ⟨rfl, v, rfl⟩
        exact ⟨v, rfl⟩
      · rintro ⟨v, hv⟩
        simp at hv
        exact ⟨hv.1.symm, v, hv.2⟩

theorem hasSub_iff (n h : List Char) :
    hasSub n h = true ↔ ∃ u v, h = u ++ n ++ v := by
  induction h with
  | nil =>
    simp only [hasSub, List.isEmpty_iff]
    constructor
    · rintro rfl
      exact ⟨[], [], rfl⟩
    · rintro ⟨u, v, huv⟩
      rcases u with _ | _
      · rcases n with _ | _
        · rfl
        · simp at huv
      · simp at huv
  | cons c cs ih =>
    simp only [hasSub, Bool.or_eq_true]
    rw [startsWithChars_iff, ih]
    constructor
    · rintro (⟨v, hv⟩ | ⟨u, v, huv⟩)
      · exact ⟨[], v, by simp [hv]⟩
      · exact ⟨c :: u, v, by simp [huv]⟩
    · rintro ⟨u, v, huv⟩
      rcases u with _ | ⟨u0, u'⟩
      · exact Or.inl ⟨v, by simpa using huv⟩
      · simp at huv
        exact Or.inr ⟨u', v, by rw [huv.2, List.append_assoc]⟩

theorem delete_fold_clear (es : List Entry) :
    ∀ l : RegKey, (∀ e ∈ es, normalize_path e.exe = e.exe) →
    (∀ q ∈ l, ∃ e ∈ es, e.exe = q.1) →
    es.foldl (fun s e => delete e.exe s) (some l) = some [] := by
  induction es with
  | nil =>
    intro l _ hcov
    rcases l with _ | ⟨q, l'⟩
    · rfl
    · obtain ⟨e, he, _⟩ := hcov q (by simp)
      simp at he
  | cons e es ih =>
    intro l hfix hcov
    have hfe : normalize_path e.exe = e.exe := hfix e (by simp)
    show es.foldl (fun s e => delete e.exe s) (delete e.exe (some l)) = some []
    have hdel : delete e.exe (some l) =
        some (l.filter (fun q => q.1 != e.exe)) := by
      show some (deleteValue (normalize_path e.exe) l) = _
      rw [hfe]
      rfl
    rw [hdel]
    apply ih _ (fun e' he' => hfix e' (by simp [he']))
    intro q hq
    rw [List.mem_filter] at hq
    obtain ⟨e', he', hee'⟩ := hcov q hq.1
    rcases List.mem_cons.mp he' with rfl | he'
    · exfalso
      have := hq.2
      rw [hee'] at this
      simp at this
    · exact ⟨e', he', hee'⟩

theorem clearEntries_fix (kvs : RegKey)
    (hfix : ∀ q ∈ kvs, normalize_path q.1 = q.1) :
    clearEntries (some kvs) = some [] := by
  unfold clearEntries
  show (kvs.map entryOfPair).foldl (fun s e => delete e.exe s) (some kvs) = some []
  apply delete_fold_clear
  · intro e he
    rw [List.mem_map] at he
    obtain ⟨q, hq, rfl⟩ := he
    show normalize_path (normalize_path q.1) = normalize_path q.1
    simp only [hfix q hq]
  · intro q hq
    exact ⟨entryOfPair q, List.mem_map.mpr ⟨q, hq, rfl⟩, hfix q hq⟩

theorem setValue_fresh (name v : String) (k : RegKey)
    (h : ∀ q ∈ k, q.1 ≠ name) : setValue name v k = k ++ [(name, v)] := by
  unfold setValue
  rw [if_neg]
  simp only [List.any_eq_true, beq_iff_eq, not_exists]
  intro q
  intro hcon
  exact absurd hcon.2 (h q hcon.1)

theorem applyEntries_fresh (es : List Entry) :
    ∀ acc : RegKey, (es.map Entry.exe).Nodup →
    (∀ e ∈ es, normalize_path e.exe = e.exe) →
    (∀ e ∈ es, ∀ q ∈ acc, q.1 ≠ e.exe) →
    applyEntries (es.map fun e => (e.exe, JValue.jint e.pref.toInt)) (some acc) =
      .ok (some (acc ++ es.map fun e => (e.exe, regValueOf e.pref))) := by
  induction es with
  | nil => intro acc _ _ _; simp [applyEntries]
  | cons e es ih =>
    intro acc hnd hfix hdisj
    have hset : set_pref e.exe e.pref (some acc) =
        some (acc ++ [(e.exe, regValueOf e.pref)]) := by
      show some (setValue (normalize_path e.exe) (regValueOf e.pref) acc) = _
      rw [hfix e (by simp)]
      rw [setValue_fresh _ _ _ (fun q hq => hdisj e (by simp) q hq)]
    simp only [List.map_cons, applyEntries, pyPref_code]
    rw [hset]
    rw [List.map_cons] at hnd
    have hnd' := hnd
    rw [List.nodup_cons] at hnd'
    rw [ih (acc ++ [(e.exe, regValueOf e.pref)]) hnd'.2
      (fun e' he' => hfix e' (by simp [he']))
      ?_]
    · simp
    · intro e' he' q hq
      rcases List.mem_append.mp hq with hq | hq
      · exact hdisj e' (by simp [he']) q hq
      · simp at hq
        rw [hq]
        intro hcon
        have hcon2 : e.exe = e'.exe := hcon
        exact hnd'.1 (by rw [hcon2]; exact List.mem_map.mpr ⟨e', he', rfl⟩)

theorem dictIns_fresh (d : List (String × Int)) (k : String) (v : Int)
    (h : ∀ q ∈ d, q.1 ≠ k) : dictIns d k v = d ++ [(k, v)] := by
  unfold dictIns
  rw [if_neg]
  simp only [List.any_eq_true, beq_iff_eq, not_exists]
  intro q hcon
  exact absurd hcon.2 (h q hcon.1)

theorem buildDict_nodup (es : List Entry) :
    ∀ acc : List (String × Int), (es.map Entry.exe).Nodup →
    (∀ e ∈ es, ∀ q ∈ acc, q.1 ≠ e.exe) →
    es.foldl (fun d e => dictIns d e.exe e.pref.toInt) acc =
      acc ++ es.map (fun e => (e.exe, e.pref.toInt)) := by
  induction es with
  | nil => intro acc _ _; simp
  | cons e es ih =>
    intro acc hnd hdisj
    show es.foldl (fun d e => dictIns d e.exe e.pref.toInt)
      (dictIns acc e.exe e.pref.toInt) = _
    rw [dictIns_fresh _ _ _ (fun q hq => hdisj e (by simp) q hq)]
    rw [List.map_cons] at hnd
    have hnd' := hnd
    rw [List.nodup_cons] at hnd'
    rw [ih (acc ++ [(e.exe, e.pref.toInt)]) hnd'.2 ?_]
    · simp
    · intro e' he' q hq
      rcases List.mem_append.mp hq with hq | hq
      · exact hdisj e' (by simp [he']) q hq
      · simp at hq
        rw [hq]
        intro hcon
        have hcon2 : e.exe = e'.exe := hcon
        exact hnd'.1 (by rw [hcon2]; exact List.mem_map.mpr ⟨e', he', rfl⟩)

theorem applyEntries_total (fs : List (String × JValue)) :
    ∀ st : RegState, (∃ st', applyEntries fs st = .ok st') ∨
      applyEntries fs st = .error .valueError := by
  induction fs with
  | nil => intro st; exact Or.inl ⟨st, rfl⟩
  | cons f fs ih =>
    intro st
    show (∃ st', applyEntries (f :: fs) st = .ok st') ∨ _
    rcases f with ⟨exe, v⟩
    unfold applyEntries
    rcases hpv : pyPrefOfJson v with _ | pr
    · exact Or.inr rfl
    · exact ih (set_pref exe pr st)

theorem enumValue_ok (k : RegKey) (failAt : Option Nat) (i : Nat) (nv : String × String)
    (h : enumValue k failAt i = .ok nv) : (effList k failAt)[i]? = some nv := by
  cases failAt with
  | none =>
    simp only [enumValue] at h
    rcases hk : k[i]? with _ | nv'
    · rw [hk] at h; cases h
    · rw [hk] at h
      cases h
      simpa [effList] using hk
  | some f =>
    simp only [enumValue] at h
    by_cases hif : i < f
    · rw [if_pos hif] at h
      rcases hk : k[i]? with _ | nv'
      · rw [hk] at h; cases h
      · rw [hk] at h
        have h2 : nv' = nv := by injection h
        show (k.take f)[i]? = some nv
        rw [List.getElem?_take_of_lt hif, ← h2]
        exact hk
    · rw [if_neg hif] at h
      cases h

theorem enumValue_err (k : RegKey) (failAt : Option Nat) (i : Nat)
    (h : enumValue k failAt i = .error ()) : (effList k failAt)[i]? = none := by
  cases failAt with
  | none =>
    simp only [enumValue] at h
    rcases hk : k[i]? with _ | nv'
    · simpa [effList] using hk
    · rw [hk] at h; cases h
  | some f =>
    simp only [enumValue] at h
    by_cases hif : i < f
    · rw [if_pos hif] at h
      rcases hk : k[i]? with _ | nv'
      · show (k.take f)[i]? = none
        rw [List.getElem?_take_of_lt hif]
        exact hk
      · rw [hk] at h; cases h
    · apply List.getElem?_eq_none
      show (k.take f).length ≤ i
      rw [List.length_take]
      omega

theorem readLoop_spec (k : RegKey) (failAt : Option Nat) :
    ∀ (fuel i : Nat) (out : List Entry), (effList k failAt).length - i < fuel →
      readLoop k failAt fuel i out =
        out ++ ((effList k failAt).drop i).map entryOfPair := by
  intro fuel
  induction fuel with
  | zero => intro i out h; omega
  | succ fuel ih =>
    intro i out hfuel
    show (match enumValue k failAt i with
      | .error _ => out
      | .ok nv => readLoop k failAt fuel (i + 1) (out ++ [entryOfPair nv])) = _
    rcases henv : enumValue k failAt i with e | nv
    · have hnone := enumValue_err k failAt i (by rw [henv])
      have hlen : (effList k failAt).length ≤ i := by
        by_contra hcon
        rw [List.getElem?_eq_none_iff] at hnone
        omega
      show out = _
      rw [List.drop_eq_nil_of_le hlen]
      simp
    · have hok := enumValue_ok k failAt i nv henv
      have hlt : i < (effList k failAt).length := (List.getElem?_eq_some_iff.mp hok).1
      show readLoop k failAt fuel (i + 1) (out ++ [entryOfPair nv]) = _
      rw [ih (i + 1) (out ++ [entryOfPair nv]) (by omega)]
      rw [List.append_assoc]
      congr 1
      rw [List.drop_eq_getElem_cons hlt]
      have : (effList k failAt)[i] = nv := by
        have := hok
        rw [List.getElem?_eq_some_iff] at this
        exact this.2
      rw [this]
      simp

theorem readAllModel_spec (k : RegKey) (failAt : Option Nat) :
    readAllModel (some k) failAt = (effList k failAt).map entryOfPair := by
  show readLoop k failAt (k.length + 1) 0 [] = _
  rw [readLoop_spec k failAt (k.length + 1) 0 [] ?_]
  · simp
  · have : (effList k failAt).length ≤ k.length := by
      cases failAt with
      | none => simp [effList]
      | some f => simp [effList]
    omega

theorem applyEntries_codes (cs : List (String × Int)) :
    ∀ st : RegState, (∀ q ∈ cs, q.2 = 1 ∨ q.2 = 2) →
    applyEntries (cs.map fun q => (q.1, .jint q.2)) st =
      .ok (cs.foldl (fun s q =>
        set_pref q.1 (if q.2 = 2 then Pref.PERF else Pref.POWER) s) st) := by
  induction cs with
  | nil => intro st _; rfl
  | cons q cs ih =>
    intro st hcodes
    rcases hcodes q (by simp) with h1 | h2
    · have hp : pyPrefOfJson (.jint q.2) = some Pref.POWER := by
        rw [h1]; rfl
      have hif : (if q.2 = 2 then Pref.PERF else Pref.POWER) = Pref.POWER := by
        rw [if_neg (by rw [h1]; decide)]
      simp only [List.map_cons, applyEntries, hp, List.foldl_cons, hif]
      exact ih _ (fun q' hq' => hcodes q' (by simp [hq']))
    · have hp : pyPrefOfJson (.jint q.2) = some Pref.PERF := by
        rw [h2]; rfl
      have hif : (if q.2 = 2 then Pref.PERF else Pref.POWER) = Pref.PERF := by
        rw [if_pos h2]
      simp only [List.map_cons, applyEntries, hp, List.foldl_cons, hif]
      exact ih _ (fun q' hq' => hcodes q' (by simp [hq']))

/-- Claim C1 counterexample: `restore` does not map integer codes other than 1 and 2 to PowerSaving; `Pref(code)` raises `ValueError` for the codes 0, 3 and -1 that the claim says yield PowerSaving entries. -/
theorem restore_other_code_raises :
    restore (some (.jobj [("C:\\x.exe", .jint 0)])) (some []) = .error .valueError ∧
    restore (some (.jobj [("C:\\y.exe", .jint 3)])) (some []) = .error .valueError ∧
    restore (some (.jobj [("C:\\z.exe", .jint (-1))])) (some []) = .error .valueError :=
  ⟨rfl, rfl, rfl⟩

/-- Claim C1 (amended): `restore` calls `set_pref` with HighPerformance for code 2 and PowerSaving for code 1, and completes for mappings whose codes are all 1 or 2; any other integer code makes `Pref(code)` raise `ValueError`. -/
theorem restore_code_mapping :
    (∀ (st : RegState) (cs : List (String × Int)),
      (∀ q ∈ cs, q.2 = 1 ∨ q.2 = 2) →
      restore (some (.jobj (cs.map fun q => (q.1, .jint q.2)))) st =
        .ok (cs.foldl (fun s q =>
          set_pref q.1 (if q.2 = 2 then Pref.PERF else Pref.POWER) s) (clearEntries st))) ∧
    (∀ (st : RegState) (k : String) (c : Int), c ≠ 1 → c ≠ 2 →
      restore (some (.jobj [(k, .jint c)])) st = .error .valueError) := by
  constructor
  · intro st cs hcodes
    show applyEntries (cs.map fun q => (q.1, .jint q.2)) (clearEntries st) = _
    exact applyEntries_codes cs (clearEntries st) hcodes
  · intro st k c hc1 hc2
    show applyEntries [(k, .jint c)] (clearEntries st) = .error .valueError
    simp only [applyEntries, pyPrefOfJson, if_neg hc1, if_neg hc2]

/-- Witness for the amended claim C1 at a concrete mapping. -/
theorem restore_code_mapping_witness :
    (∀ q ∈ [("C:\\a.exe", (2 : Int)), ("C:\\b.exe", 1)], q.2 = 1 ∨ q.2 = 2) ∧
    restore (some (.jobj ([("C:\\a.exe", (2 : Int)), ("C:\\b.exe", 1)].map
        fun q => (q.1, .jint q.2)))) (some []) =
      .ok ([("C:\\a.exe", (2 : Int)), ("C:\\b.exe", 1)].foldl
        (fun s q => set_pref q.1 (if q.2 = 2 then Pref.PERF else Pref.POWER) s)
        (clearEntries (some []))) ∧
    restore (some (.jobj [("C:\\c.exe", .jint 7)])) (some []) = .error .valueError :=
  ⟨by decide, restore_code_mapping.1 _ _ (by decide),
    restore_code_mapping.2 _ _ 7 (by decide) (by decide)⟩

/-- Claim C2 counterexample: restoring a valid-JSON array fails with `AttributeError`, and a mapping with a non-integer value fails with `ValueError`, neither of which is the `FormatError` kind (`json.JSONDecodeError`). -/
theorem restore_nondict_error_kind :
    restore (some (.jarr [])) (some [("C:\\a.exe", "GpuPreference=2;")]) =
      .error .attributeError ∧
    PyErr.attributeError ≠ PyErr.jsonDecodeError ∧
    restore (some (.jobj [("C:\\a.exe", .jstr "2")])) (some []) = .error .valueError ∧
    PyErr.valueError ≠ PyErr.jsonDecodeError :=
  ⟨rfl, by decide, rfl, by decide⟩

/-- Claim C2 (amended): only invalid JSON fails with `JSONDecodeError` (the spec's FormatError); valid JSON that is not a dict fails with `AttributeError`, raised after the store was already cleared; a dict either restores or fails with `ValueError`. -/
theorem restore_error_kinds :
    (∀ st : RegState, restore none st = .error .jsonDecodeError) ∧
    (∀ (st : RegState) (v : JValue), (∀ fs, v ≠ .jobj fs) →
      restore (some v) st = .error .attributeError) ∧
    (∀ (st : RegState) (fs : List (String × JValue)),
      (∃ st', restore (some (.jobj fs)) st = .ok st') ∨
        restore (some (.jobj fs)) st = .error .valueError) := by
  refine ⟨fun st => rfl, ?_, ?_⟩
  · intro st v hv
    cases v with
    | jobj fs => exact absurd rfl (hv fs)
    | jnull => rfl
    | jbool b => rfl
    | jint n => rfl
    | jstr s => rfl
    | jarr xs => rfl
  · intro st fs
    exact applyEntries_total fs (clearEntries st)

/-- Witness for the amended claim C2 at concrete documents. -/
theorem restore_error_kinds_witness :
    restore none (some []) = .error .jsonDecodeError ∧
    restore (some (.jstr "x")) (some []) = .error .attributeError ∧
    ((∃ st', restore (some (.jobj [])) (some []) = .ok st') ∨
      restore (some (.jobj [])) (some []) = .error .valueError) :=
  ⟨restore_error_kinds.1 _,
    restore_error_kinds.2.1 (some []) (.jstr "x") (fun _ h => JValue.noConfusion h),
    restore_error_kinds.2.2 _ _⟩

/-- Claim C3 counterexample: with a stored value name `A:.`, restore's clearing loop deletes the twice-normalized name `A:`, misses the entry, and the restored store still contains an entry for the old path besides the new `B` entry. -/
theorem restore_misses_unstable_name :
    restore (some (.jobj [("C:\\b.exe", .jint 1)])) (some [("A:.", "GpuPreference=1;")]) =
      .ok (some [("A:.", "GpuPreference=1;"), ("C:\\b.exe", "GpuPreference=1;")]) ∧
    Entry.mk "A:" Pref.POWER ∈
      readAll (some [("A:.", "GpuPreference=1;"), ("C:\\b.exe", "GpuPreference=1;")]) :=
  ⟨rfl, by decide⟩

/-- Claim C3 (amended): when every stored value name is a fixpoint of `normalize_path`, restoring a backup containing only path `B` deletes every existing entry and leaves exactly the entry for the normalized `B`. -/
theorem restore_full_replace (kvs : RegKey) (B : String) (c : Int)
    (hfix : ∀ q ∈ kvs, normalize_path q.1 = q.1) (hc : c = 1 ∨ c = 2) :
    restore (some (.jobj [(B, .jint c)])) (some kvs) =
      .ok (some [(normalize_path B,
        if c = 2 then "GpuPreference=2;" else "GpuPreference=1;")]) := by
  show applyEntries [(B, .jint c)] (clearEntries (some kvs)) = _
  rw [clearEntries_fix kvs hfix]
  rcases hc with rfl | rfl
  · rfl
  · rfl

/-- Witness for the amended claim C3 at a concrete store. -/
theorem restore_full_replace_witness :
    (∀ q ∈ [("C:\\a.exe", "GpuPreference=1;")], normalize_path q.1 = q.1) ∧
    restore (some (.jobj [("C:\\b.exe", .jint 2)]))
        (some [("C:\\a.exe", "GpuPreference=1;")]) =
      .ok (some [(normalize_path "C:\\b.exe",
        if (2 : Int) = 2 then "GpuPreference=2;" else "GpuPreference=1;")]) :=
  ⟨by decide, restore_full_replace _ _ 2 (by decide) (Or.inr rfl)⟩

/-- Claim C4 counterexample: two raw value names with the same normalized form collapse into one backup key, so backup-then-restore loses the PowerSaving pair that `read_all` reported before the backup. -/
theorem backup_restore_collapses_duplicates :
    restore (some (backupDoc (some [("c:/x.exe", "GpuPreference=1;"),
        ("c:\\x.exe", "GpuPreference=2;")]))) (some []) =
      .ok (some [("C:\\x.exe", "GpuPreference=2;")]) ∧
    Entry.mk "C:\\x.exe" Pref.POWER ∈ readAll (some [("c:/x.exe", "GpuPreference=1;"),
        ("c:\\x.exe", "GpuPreference=2;")]) ∧
    Entry.mk "C:\\x.exe" Pref.POWER ∉ readAll (some [("C:\\x.exe", "GpuPreference=2;")]) :=
  ⟨rfl, by decide, by decide⟩

/-- Claim C4 (amended): for a populated store whose entries have pairwise distinct normalized names that are fixpoints of `normalize_path`, `backup` followed by `restore` on the externally cleared store reproduces exactly the original entries of `read_all`. -/
theorem backup_restore_roundtrip (kvs : RegKey) (_hpop : kvs ≠ [])
    (hdist : (kvs.map (fun q => normalize_path q.1)).Nodup)
    (hfix : ∀ q ∈ kvs, normalize_path (normalize_path q.1) = normalize_path q.1) :
    ∃ st', restore (some (backupDoc (some kvs))) (some []) = .ok st' ∧
      readAll st' = readAll (some kvs) := by
  have hmap_exe : (kvs.map entryOfPair).map Entry.exe =
      kvs.map (fun q => normalize_path q.1) := by
    rw [List.map_map]
    rfl
  have hnd : ((kvs.map entryOfPair).map Entry.exe).Nodup := by
    rw [hmap_exe]; exact hdist
  have hfix' : ∀ e ∈ kvs.map entryOfPair, normalize_path e.exe = e.exe := by
    intro e he
    rw [List.mem_map] at he
    obtain ⟨q, hq, rfl⟩ := he
    exact hfix q hq
  have hbd : backupDoc (some kvs) =
      .jobj ((kvs.map entryOfPair).map fun e => (e.exe, JValue.jint e.pref.toInt)) := by
    show JValue.jobj ((buildDict (readAll (some kvs))).map (fun q => (q.1, .jint q.2))) = _
    rw [show readAll (some kvs) = kvs.map entryOfPair from rfl]
    unfold buildDict
    rw [buildDict_nodup (kvs.map entryOfPair) [] hnd (by simp)]
    rw [List.nil_append, List.map_map]
    rfl
  refine ⟨some ((kvs.map entryOfPair).map fun e => (e.exe, regValueOf e.pref)), ?_, ?_⟩
  · rw [hbd]
    show applyEntries ((kvs.map entryOfPair).map fun e => (e.exe, JValue.jint e.pref.toInt))
      (clearEntries (some [])) = _
    rw [show clearEntries (some ([] : RegKey)) = some [] from rfl]
    rw [applyEntries_fresh (kvs.map entryOfPair) [] hnd hfix' (by simp)]
    rw [List.nil_append]
  · show ((kvs.map entryOfPair).map fun e => (e.exe, regValueOf e.pref)).map entryOfPair =
      kvs.map entryOfPair
    rw [List.map_map]
    have : ∀ e ∈ kvs.map entryOfPair,
        (entryOfPair ∘ fun e => (e.exe, regValueOf e.pref)) e = id e := by
      intro e he
      show Entry.mk (normalize_path e.exe) (Pref.fromRegValue (regValueOf e.pref)) = id e
      rw [hfix' e he, fromRegValue_regValueOf]
      rfl
    rw [List.map_congr_left this, List.map_id]

/-- Witness for the amended claim C4 at a concrete store. -/
theorem backup_restore_roundtrip_witness :
    ([("C:\\a.exe", "GpuPreference=2;")] : RegKey) ≠ [] ∧
    ([("C:\\a.exe", "GpuPreference=2;")].map (fun q => normalize_path q.1)).Nodup ∧
    (∀ q ∈ [("C:\\a.exe", "GpuPreference=2;")],
      normalize_path (normalize_path q.1) = normalize_path q.1) ∧
    ∃ st', restore (some (backupDoc (some [("C:\\a.exe", "GpuPreference=2;")])))
        (some []) = .ok st' ∧
      readAll st' = readAll (some [("C:\\a.exe", "GpuPreference=2;")]) :=
  ⟨by decide, by decide, by decide,
    backup_restore_roundtrip _ (by decide) (by decide) (by decide)⟩

/-- Claim C5: `Pref.from_reg_value` parses a raw value to HighPerformance iff the string contains the literal marker `GpuPreference=2`; everything else, including the empty string and `GpuPreference=1;`, reads back as PowerSaving. -/
theorem from_reg_value_marker (val : String) :
    (Pref.fromRegValue val = Pref.PERF ↔ ∃ u v, val.data = u ++ markerChars ++ v) ∧
    Pref.fromRegValue "" = Pref.POWER ∧
    Pref.fromRegValue "GpuPreference=1;" = Pref.POWER := by
  refine ⟨?_, by decide, by decide⟩
  unfold Pref.fromRegValue
  by_cases h : hasSub markerChars val.data = true
  · rw [if_pos h]
    exact ⟨fun _ => (hasSub_iff _ _).mp h, fun _ => rfl⟩
  · rw [if_neg h]
    constructor
    · intro hcon
      exact absurd hcon (by decide)
    · intro hex
      exact absurd ((hasSub_iff _ _).mpr hex) h

/-- Claim C6: deleting a path whose normalized form has no entry (including when the backing key itself is absent) does not raise and leaves the store unchanged. -/
theorem delete_absent_noop (p : String) (st : RegState)
    (h : ∀ q ∈ st.getD [], q.1 ≠ normalize_path p) : delete p st = st := by
  cases st with
  | none => rfl
  | some k =>
    show some (deleteValue (normalize_path p) k) = some k
    congr 1
    apply List.filter_eq_self.mpr
    intro q hq
    have hne := h q (by simpa using hq)
    simpa using hne

/-- Witness for claim C6 at a concrete store and path, and at the absent key. -/
theorem delete_absent_noop_witness :
    (∀ q ∈ (some [("C:\\b.exe", "GpuPreference=1;")] : RegState).getD [],
      q.1 ≠ normalize_path "C:\\a.exe") ∧
    delete "C:\\a.exe" (some [("C:\\b.exe", "GpuPreference=1;")]) =
      some [("C:\\b.exe", "GpuPreference=1;")] ∧
    delete "C:\\a.exe" (none : RegState) = none :=
  ⟨by decide, delete_absent_noop _ _ (by decide),
    delete_absent_noop "C:\\a.exe" none (by simp)⟩

/-- Claim C7: when the backing key does not exist, `read_all` returns the empty list rather than raising, in both the plain model and the failure-oracle model. -/
theorem read_all_missing_key_empty :
    readAll none = [] ∧ ∀ failAt : Option Nat, readAllModel none failAt = [] :=
  ⟨rfl, fun _ => rfl⟩

/-- Claim C10: `read_all` swallows every `OSError` of the enumeration: if enumeration fails at index `f`, it silently returns the entries read before the failure, and with no spurious failure it returns all entries, agreeing with `readAll`. -/
theorem read_all_swallows_oserror (k : RegKey) (f : Nat) :
    readAllModel (some k) (some f) = (k.take f).map entryOfPair ∧
    readAllModel (some k) none = k.map entryOfPair ∧
    readAllModel (some k) none = readAll (some k) :=
  ⟨readAllModel_spec k (some f), readAllModel_spec k none, readAllModel_spec k none⟩

/-- Claim C8 counterexample: `normalize_path` is not idempotent: the path `x\\..\\a:.` normalizes to `A:.`, which normalizes again to `A:`, because `ntpath.normpath` splits a drive off the re-parsed result. -/
theorem normalize_path_not_idempotent :
    normalize_path "x\\..\\a:." = "A:." ∧ normalize_path "A:." = "A:" ∧
    normalize_path (normalize_path "x\\..\\a:.") ≠ normalize_path "x\\..\\a:." :=
  ⟨by decide, by decide, by decide⟩

/-- Witness for the amended claim C8 at a concrete path. -/
theorem normalize_path_idem_witness :
    (':' ∉ "c:/games/../apps/x.exe".data.drop 2) ∧
    normalize_path (normalize_path "c:/games/../apps/x.exe") =
      normalize_path "c:/games/../apps/x.exe" :=
  ⟨by decide, normalize_path_idem _ (by decide)⟩

/-- Claim C9: whenever the second character of the `ntpath.normpath` result is the drive separator `:`, `normalize_path` upper-cases the first character of that result. -/
theorem normalize_path_upper_drive (p : String) (c0 c1 : Char) (rest : List Char)
    (hshape : pyNormPath p.data = c0 :: c1 :: rest) (hc : c1 = ':') :
    normalize_path p = ⟨Char.toUpper c0 :: c1 :: rest⟩ := by
  show (⟨upperDrive (pyNormPath p.data)⟩ : String) = _
  rw [hshape, hc, upperDrive_colon]

/-- Witness for claim C9: a lower-case drive path normalizes to a path starting with upper-case `C`. -/
theorem normalize_path_upper_drive_witness :
    pyNormPath "c:\\foo\\bar.exe".data = 'c' :: ':' :: "\\foo\\bar.exe".data ∧
    normalize_path "c:\\foo\\bar.exe" = ⟨Char.toUpper 'c' :: ':' :: "\\foo\\bar.exe".data⟩ ∧
    normalize_path "c:\\foo\\bar.exe" = "C:\\foo\\bar.exe" :=
  ⟨by decide, normalize_path_upper_drive _ 'c' ':' _ (by decide) rfl, by decide⟩

end GpuPref
